import Mathlib

/-!
Verification of the generic in-memory index structures of the `geo`
repository: the ordered multiset (AVL tree with duplicate counts,
`structures/avltree.py`), the plain priority queue (`structures/pq.py`),
the median selector (`build/lib/structures/quick_sort.py`), the point
index (`structures/kdtree.py`) and the bounding-box index
(`structures/bounds_tree.py`).

Python floats are idealised as exact rationals; the `float("inf")`
sentinels are modelled with `WithBot (WithTop Rat)`.  Mutation is
modelled by explicit state passing: every Python method that mutates a
node returns the new tree.
-/

namespace Geo

/-! ## Ordered multiset (`structures/avltree.py`, class `AVLTree`)

A Python `Optional[AVLTree.Node]` is one value of the inductive `AVL`:
`nil` is Python `None`, and a node carries `val`, `left`, `right`,
`height`, `count` and `weight` exactly as the Python `Node` does. -/

inductive AVL (α : Type) where
  | nil
  | node (val : α) (left right : AVL α) (height : Nat) (count : Nat) (weight : Nat)
deriving DecidableEq, Repr

namespace AVL

variable {α : Type}

/-- Python `AVLTree.get_height` (`None` has height 0). -/
def getHeight : AVL α → Nat
  | .nil => 0
  | .node _ _ _ h _ _ => h

/-- Python `AVLTree.get_weight` (`None` has weight 0). -/
def getWeight : AVL α → Nat
  | .nil => 0
  | .node _ _ _ _ _ w => w

/-- Python `AVLTree.get_balance`: `height(left) - height(right)`, an
integer that may be negative. -/
def getBalance : AVL α → Int
  | .nil => 0
  | .node _ l r _ _ _ => (getHeight l : Int) - (getHeight r : Int)

/-- Python `set_height` followed by `set_weight` on the same node:
recompute the node's `height` and `weight` from its children's stored
fields. -/
def setHW : AVL α → AVL α
  | .nil => .nil
  | .node v l r _ c _ =>
      .node v l r (1 + max (getHeight l) (getHeight r)) c (c + getWeight l + getWeight r)

/-- Python `AVLTree.left_rotate`; returns the argument unchanged when the
node or its right child is `None`. -/
def leftRotate : AVL α → AVL α
  | .nil => .nil
  | .node v l .nil h c w => .node v l .nil h c w
  | .node v l (.node rv rl rr rh rc rw) h c w =>
      setHW (.node rv (setHW (.node v l rl h c w)) rr rh rc rw)

/-- Python `AVLTree.right_rotate`; returns the argument unchanged when
the node or its left child is `None`. -/
def rightRotate : AVL α → AVL α
  | .nil => .nil
  | .node v .nil r h c w => .node v .nil r h c w
  | .node v (.node lv ll lr lh lc lw) r h c w =>
      setHW (.node lv ll (setHW (.node v lr r h c w)) lh lc lw)

/-- Comparison `key < self.get_val(t)` used by the insert rotations.  In
Python `get_val` of `None` is `None` and the comparison would raise; the
branch is unreachable when the stored heights are accurate, and the
model returns `false` there. -/
def ltVal [LinearOrder α] (key : α) : AVL α → Bool
  | .nil => false
  | .node v _ _ _ _ _ => key < v

/-- Comparison `key > self.get_val(t)` used by the insert rotations (the
`None` case is unreachable, see `ltVal`). -/
def gtVal [LinearOrder α] (key : α) : AVL α → Bool
  | .nil => false
  | .node v _ _ _ _ _ => v < key

/-- The left child of a node (`None` for `nil`). -/
def leftOf : AVL α → AVL α
  | .nil => .nil
  | .node _ l _ _ _ _ => l

/-- The right child of a node (`None` for `nil`). -/
def rightOf : AVL α → AVL α
  | .nil => .nil
  | .node _ _ r _ _ _ => r

/-- Replace the left child of a node. -/
def withLeft : AVL α → AVL α → AVL α
  | .nil, _ => .nil
  | .node v _ r h c w, l => .node v l r h c w

/-- Replace the right child of a node. -/
def withRight : AVL α → AVL α → AVL α
  | .nil, _ => .nil
  | .node v l _ h c w, r => .node v l r h c w

/-- The tail of Python `insert_helper` after the recursive step: update
height and weight, then apply one of the four rotations chosen from the
balance factor and the key's position relative to the child's key. -/
def rebalanceIns [LinearOrder α] (key : α) (t : AVL α) : AVL α :=
  let t := setHW t
  let bal := getBalance t
  if bal > 1 && ltVal key (leftOf t) then rightRotate t
  else if bal < -1 && gtVal key (rightOf t) then leftRotate t
  else if bal > 1 && gtVal key (leftOf t) then rightRotate (withLeft t (leftRotate (leftOf t)))
  else if bal < -1 && ltVal key (rightOf t) then leftRotate (withRight t (rightRotate (rightOf t)))
  else t

/-- Python `AVLTree.insert`'s recursive `insert_helper`: binary-search
insert; an equal key increments the node's `count` instead of adding a
node; heights/weights are updated and rotations applied on the way up. -/
def insertH [LinearOrder α] : AVL α → α → AVL α
  | .nil, key => .node key .nil .nil 1 1 1
  | .node v l r h c w, key =>
      if key < v then rebalanceIns key (.node v (insertH l key) r h c w)
      else if v < key then rebalanceIns key (.node v l (insertH r key) h c w)
      else rebalanceIns key (.node v l r h (c + 1) w)

/-- Python `AVLTree.get_min_value_node` restricted to non-`None` input:
value and count of the leftmost node.  (`None` input would make Python
return `None` and crash at the `temp.val` access; that call site always
passes a real node.) -/
def minNode : AVL α → Option (α × Nat)
  | .nil => none
  | .node v .nil _ _ c _ => some (v, c)
  | .node _ (.node lv ll lr lh lc lw) _ _ _ _ => minNode (.node lv ll lr lh lc lw)

/-- The tail of Python `delete_helper` after the splice: the `if not
node: return node` guard, height/weight update, and the
balance-factor-only rotations of the delete path. -/
def rebalanceDel (t : AVL α) : AVL α :=
  let t := setHW t
  let bal := getBalance t
  if bal > 1 && getBalance (leftOf t) ≥ 0 then rightRotate t
  else if bal < -1 && getBalance (rightOf t) ≤ 0 then leftRotate t
  else if bal > 1 && getBalance (leftOf t) < 0 then rightRotate (withLeft t (leftRotate (leftOf t)))
  else if bal < -1 && getBalance (rightOf t) > 0 then leftRotate (withRight t (rightRotate (rightOf t)))
  else t

/-- Python `AVLTree.delete`'s recursive `delete_helper`.  A node with
`count > 1` just has its count decremented; a node with one child is
replaced by that child (returned without rebalancing, as in the source);
a node with two children takes its in-order successor's `val` and
`count` and then deletes the successor's key from the right subtree. -/
def deleteH [LinearOrder α] : AVL α → α → AVL α
  | .nil, _ => .nil
  | .node v l r h c w, key =>
      if key < v then rebalanceDel (.node v (deleteH l key) r h c w)
      else if v < key then rebalanceDel (.node v l (deleteH r key) h c w)
      else if c > 1 then rebalanceDel (.node v l r h (c - 1) w)
      else
        match l, r with
        | .nil, _ => r
        | .node lv ll lr lh lc lw, .nil => .node lv ll lr lh lc lw
        | .node lv ll lr lh lc lw, .node rv rl rr rh rc rw =>
            match minNode (.node rv rl rr rh rc rw) with
            | some (mv, mc) =>
                rebalanceDel (.node mv (.node lv ll lr lh lc lw)
                  (deleteH (.node rv rl rr rh rc rw) mv) h mc w)
            | none => .nil

/-- Python `AVLTree.get_min_value`. -/
def getMinValue : AVL α → Option α
  | .nil => none
  | .node v .nil _ _ _ _ => some v
  | .node _ (.node lv ll lr lh lc lw) _ _ _ _ => getMinValue (.node lv ll lr lh lc lw)

/-- Python `AVLTree.in_order`: one entry per node (counts are ignored by
the traversal). -/
def inOrder : AVL α → List α
  | .nil => []
  | .node v l r _ _ _ => inOrder l ++ v :: inOrder r

/-- Python `AVLTree.get_rank`'s recursive `rank_helper`.  The
accumulation `weight(node) - weight(node.right)` is Python integer
arithmetic, so the result lives in `Int`. -/
def rankH [LinearOrder α] : AVL α → α → Int
  | .nil, _ => 0
  | .node v l r h c w, key =>
      if key < v then rankH l key
      else if v < key then
        (getWeight (.node v l r h c w) : Int) - (getWeight r : Int) + rankH r key
      else (getWeight l : Int)

/-- Python `AVLTree.get_rank`. -/
def getRank [LinearOrder α] (t : AVL α) (key : α) : Int :=
  rankH t key + 1

/-- The stored multiset, as the in-order list with each key repeated
`count` times. -/
def toML : AVL α → List α
  | .nil => []
  | .node v l r _ c _ => toML l ++ (List.replicate c v ++ toML r)

/-- Number of tree nodes whose key equals `k`. -/
def nodesWith [DecidableEq α] (t : AVL α) (k : α) : Nat :=
  match t with
  | .nil => 0
  | .node v l r _ _ _ => nodesWith l k + (if v = k then 1 else 0) + nodesWith r k

/-- Search-tree invariant maintained by `insert` on every reachable
insert-only state: keys strictly smaller to the left, strictly larger to
the right (one node per key), duplicate counts positive. -/
def Bst [LinearOrder α] : AVL α → Prop
  | .nil => True
  | .node v l r _ c _ =>
      0 < c ∧ (∀ x ∈ toML l, x < v) ∧ (∀ x ∈ toML r, v < x) ∧ Bst l ∧ Bst r

/-- The stored `height` and `weight` fields agree with the tree below
them (they are recomputed by `set_height`/`set_weight` on every path the
code touches). -/
def Hw : AVL α → Prop
  | .nil => True
  | .node _ l r h c w =>
      h = 1 + max (getHeight l) (getHeight r) ∧
      w = c + getWeight l + getWeight r ∧ Hw l ∧ Hw r

end AVL

/-- Python `AVLTree.insert` (wrapper around `insert_helper`). -/
def avlInsert [LinearOrder α] (t : AVL α) (key : α) : AVL α := AVL.insertH t key

/-- Python `AVLTree.delete` (wrapper around `delete_helper`). -/
def avlDelete [LinearOrder α] (t : AVL α) (key : α) : AVL α := AVL.deleteH t key

/-- The tree obtained by inserting the given keys in order into a fresh
`AVLTree()`. -/
def avlBuild [LinearOrder α] (keys : List α) : AVL α :=
  keys.foldl avlInsert .nil

/-! ## Priority queue (`structures/pq.py`)

`enq` is `AVLTree.insert`, `deq` reads `get_min_value` and deletes it.
`pqDeqList n t` performs `n` `deq` calls, stopping early at an empty
queue (`is_empty`, i.e. `root == None`); it returns the dequeued keys. -/

def pqDeqList [LinearOrder α] : Nat → AVL α → List α
  | 0, _ => []
  | _ + 1, .nil => []
  | n + 1, .node v l r h c w =>
      match AVL.getMinValue (.node v l r h c w) with
      | none => []
      | some m => m :: pqDeqList n (avlDelete (.node v l r h c w) m)

/-- Enqueue every element of `xs` into a fresh `PriorityQueue`, then
dequeue `xs.length` times (one `deq` per `enq`). -/
def pqDrain [LinearOrder α] (xs : List α) : List α :=
  pqDeqList xs.length (avlBuild xs)

/-! ## Median selector (`build/lib/structures/quick_sort.py`)

The Python routines mutate a list in place through index swaps; the
model passes the list explicitly and returns the new one.  Comparator
results (`comparator(x)`, compared with `>`) live in an arbitrary linear
order.  `arr.getD i dflt` models an in-range `arr[i]` read (all reads
are in range at the call sites; Python would raise otherwise). -/

namespace QS

variable {T K : Type}

/-- Python `swap(arr, i, j)`.  Out-of-range indices would raise in
Python and never occur at the call sites; the model returns the list
unchanged there. -/
def swapL (arr : List T) (i j : Nat) : List T :=
  match arr[i]?, arr[j]? with
  | some a, some b => (arr.set i b).set j a
  | _, _ => arr

/-- The `for j in range(low, high)` loop of Python `partition`.  The
Python running index `i` starts at `low - 1` and is only ever read as
`i + 1`, so the model's `ip` tracks `i + 1` (starting at `low`): a hit
(`not comparator(arr[j]) > comparator(pivot)`) swaps positions `ip` and
`j` and bumps `ip`.  After the loop the pivot at `high` is swapped to
position `ip`, which is returned.  The first argument counts the
remaining loop iterations `high - j` (the caller passes `high - low`
with `j = low`), making the recursion structural: it reaches `0`
exactly when `j` reaches `high`. -/
def partLoop [LinearOrder K] (c : T → K) (dflt : T) (pv : K) (high : Nat) :
    Nat → Nat → Nat → List T → List T × Nat
  | 0, ip, _, arr => (swapL arr ip high, ip)
  | n + 1, ip, j, arr =>
      if ¬ c (arr.getD j dflt) > pv then
        partLoop c dflt pv high n (ip + 1) (j + 1) (swapL arr ip j)
      else partLoop c dflt pv high n ip (j + 1) arr

/-- Python `partition(arr, low, high, comparator)`: Lomuto partition
with the last element `arr[high]` as pivot; returns the permuted list
and the pivot's final index. -/
def partition [LinearOrder K] (c : T → K) (dflt : T) (arr : List T) (low high : Nat) :
    List T × Nat :=
  partLoop c dflt (c (arr.getD high dflt)) high (high - low) low low arr

/-- Python `quick_select`'s recursive `quick_select_helper` (after the
outer `n -= 1`, so `n0` is the 0-based target).  The recursion strictly
shrinks `high + 1 - low`, which the fuel argument bounds; the fuel-
exhausted branch is unreachable from `quickSelect` (shown by
`quickSelectGo_spec`). -/
def quickSelectGo [LinearOrder K] (c : T → K) (dflt : T) (n0 : Nat) :
    Nat → Nat → Nat → List T → List T × Option T
  | 0, _, _, arr => (arr, none)
  | fuel + 1, low, high, arr =>
      if low = high ∧ low = n0 then (arr, some (arr.getD n0 dflt))
      else if low > high then (arr, none)
      else
        let p := partition c dflt arr low high
        if p.2 = n0 then (p.1, some (p.1.getD p.2 dflt))
        else if p.2 > n0 then quickSelectGo c dflt n0 fuel low (p.2 - 1) p.1
        else quickSelectGo c dflt n0 fuel (p.2 + 1) high p.1

/-- Python `quick_select(arr, n, comparator)`: the `n`-th smallest
(1-indexed); returns the partially sorted list alongside (the list is
mutated in place in Python and read back by `median_with_left_right`).
The `arr.length - 1` high index assumes a nonempty list, which the only
caller `median_with_left_right` guarantees via its length guard. -/
def quickSelect [LinearOrder K] (c : T → K) (dflt : T) (arr : List T) (n : Nat) :
    List T × Option T :=
  quickSelectGo c dflt (n - 1) arr.length 0 (arr.length - 1) arr

/-- Python `median(arr, comparator)`: selects position
`int(len(arr)/2) + 1` (1-indexed). -/
def median [LinearOrder K] (c : T → K) (dflt : T) (arr : List T) : List T × Option T :=
  quickSelect c dflt arr (arr.length / 2 + 1)

/-- Python `median_with_left_right(arr, comparator)`: empty input yields
`([], None, [])`; otherwise the median is selected (mutating the list)
and the mutated list is sliced as `(arr[:mid], med, arr[mid+1:])` with
`mid = int(len(arr)/2)`. -/
def medianWithLeftRight [LinearOrder K] (c : T → K) (dflt : T) (arr : List T) :
    List T × Option T × List T :=
  if arr.length = 0 then ([], none, [])
  else
    let m := median c dflt arr
    (m.1.take (arr.length / 2), m.2, m.1.drop (arr.length / 2 + 1))

/-- The slice `l[lo..hi]` (inclusive), the region a partition call may
permute. -/
def window (l : List T) (lo hi : Nat) : List T :=
  (l.drop lo).take (hi + 1 - lo)

/-- Specification of one `partition(arr, low, high)` call: the output
list is a permutation of the input within `[low, high]` and untouched
outside it, the returned index `p` lies in `[low, high]`, entries of
`[low, p)` compare `<= pv`, entries of `(p, high]` compare `> pv`, and
the pivot (the input's entry at `high`, whose comparator value is `pv`)
lands at `p`. -/
def PLSpec [LinearOrder K] (c : T → K) (dflt : T) (pv : K) (low high : Nat)
    (arr : List T) (out : List T × Nat) : Prop :=
  out.1.length = arr.length ∧
  low ≤ out.2 ∧ out.2 ≤ high ∧
  (∀ k, k < low ∨ high < k → out.1[k]? = arr[k]?) ∧
  (window out.1 low high).Perm (window arr low high) ∧
  (∀ k, low ≤ k → k < out.2 → c (out.1.getD k dflt) ≤ pv) ∧
  (∀ k, out.2 < k → k ≤ high → pv < c (out.1.getD k dflt)) ∧
  out.1.getD out.2 dflt = arr.getD high dflt

end QS

/-! ## Points and bounds (`geometry/pt.py`, `structures/bound.py`)

Coordinates are exact rationals.  `Bound` fields live in
`WithBot (WithTop Rat)` so that the `float("inf")`/`float("-inf")`
sentinels of the empty bound are representable; a finite coordinate `q`
enters a bound as `qc q`. -/

abbrev Qext : Type := WithBot (WithTop Rat)

def qc (q : Rat) : Qext := ((q : WithTop Rat) : Qext)

structure Pt where
  x : Rat
  y : Rat
deriving DecidableEq, Repr, Inhabited

/-- Python `Bound.__init__(min_x, max_x, min_y, max_y)`. -/
structure Bound where
  min_x : Qext
  max_x : Qext
  min_y : Qext
  max_y : Qext
deriving DecidableEq, Repr, Inhabited

namespace Bound

/-- Python `Bound.merge_with` (mutating in Python; the merged bound is
returned here). -/
def mergeWith (b other : Bound) : Bound :=
  { min_x := min b.min_x other.min_x
    max_x := max b.max_x other.max_x
    min_y := min b.min_y other.min_y
    max_y := max b.max_y other.max_y }

/-- Python `Bound.contains(point)` (inclusive of edges). -/
def containsP (b : Bound) (p : Pt) : Bool :=
  decide (qc p.x ≥ b.min_x) && decide (qc p.x ≤ b.max_x) &&
  decide (qc p.y ≥ b.min_y) && decide (qc p.y ≤ b.max_y)

/-- The sentinel `Bound(inf, -inf, inf, -inf)` used by the tree
initialisers. -/
def infinite : Bound := { min_x := ⊤, max_x := ⊥, min_y := ⊤, max_y := ⊥ }

/-- A finite box from rational corners (in the Python field order). -/
def ofRat (mnx mxx mny mxy : Rat) : Bound :=
  { min_x := qc mnx, max_x := qc mxx, min_y := qc mny, max_y := qc mxy }

end Bound

/-- The Python exception an operation ends with. -/
inductive PyErr where
  | indexError
deriving DecidableEq, Repr

instance {E A : Type} [DecidableEq E] [DecidableEq A] :
    DecidableEq (Except E A) := fun x y =>
  match x, y with
  | .ok a, .ok b =>
      match decEq a b with
      | isTrue h => isTrue (h ▸ rfl)
      | isFalse h => isFalse (fun hh => h (Except.ok.inj hh))
  | .error e, .error f =>
      match decEq e f with
      | isTrue h => isTrue (h ▸ rfl)
      | isFalse h => isFalse (fun hh => h (Except.error.inj hh))
  | .ok _, .error _ => isFalse (fun hh => Except.noConfusion hh)
  | .error _, .ok _ => isFalse (fun hh => Except.noConfusion hh)

/-! ## Point index (`structures/kdtree.py` and the generic
`build/lib/geo/structures/kdtree.py`) -/

inductive Axis where
  | x
  | y
deriving DecidableEq, Repr

/-- Python `KDNode.next_level`. -/
def Axis.next : Axis → Axis
  | .x => .y
  | .y => .x

/-- Python `getattr(point, level)`. -/
def coord (p : Pt) : Axis → Rat
  | .x => p.x
  | .y => p.y

/-- Python `Optional[KDNode]`: `nil` is `None`; a node stores its point,
comparison level and children. -/
inductive KD where
  | nil
  | node (point : Pt) (level : Axis) (left right : KD)
deriving DecidableEq, Repr

namespace KD

/-- Python `KDNode.add`: ties (`<=`) go left; a new leaf alternates the
level.  (`add` is a node method, so the `nil` case is Python-unreachable;
it creates the root leaf exactly as `KDTree.add` does, making
tree-level insertion `foldl add nil`.) -/
def add : KD → Pt → KD
  | .nil, p => .node p .x .nil .nil
  | .node pt lvl l r, p =>
      if coord p lvl ≤ coord pt lvl then
        match l with
        | .nil => .node pt lvl (.node p lvl.next .nil .nil) r
        | _ => .node pt lvl (add l p) r
      else
        match r with
        | .nil => .node pt lvl l (.node p lvl.next .nil .nil)
        | _ => .node pt lvl l (add r p)

/-- Every point in the tree (root first). -/
def toListKD : KD → List Pt
  | .nil => []
  | .node p _ l r => p :: (toListKD l ++ toListKD r)

/-- The split invariant `add` maintains at every node: left-subtree
points compare `<=` on the node's level, right-subtree points `>`. -/
def WfKD : KD → Prop
  | .nil => True
  | .node pt lvl l r =>
      (∀ p ∈ toListKD l, coord p lvl ≤ coord pt lvl) ∧
      (∀ p ∈ toListKD r, coord pt lvl < coord p lvl) ∧ WfKD l ∧ WfKD r

end KD

/-- The sentinel `GeoPt(float("inf"), float("inf"))` that
`_get_temp_point` substitutes for an absent branch, alongside finite
points. -/
inductive PPt where
  | fin (p : Pt)
  | inf
deriving DecidableEq, Repr

section KDNearest

variable (dist : Pt → Pt → Rat)

/-- The capability distance of a candidate; the infinite sentinel is at
distance `float("inf")`. -/
def distP (q : Pt) : PPt → WithTop Rat
  | .fin p => (dist q p : WithTop Rat)
  | .inf => ⊤

/-- One iteration of the loop in `get_closest_point`: a candidate
strictly closer than the best so far replaces it. -/
def gcpStep (q : Pt) (st : Option PPt × WithTop Rat) (p : PPt) :
    Option PPt × WithTop Rat :=
  if st.2 > distP dist q p then (some p, distP dist q p) else st

/-- Python `get_closest_point(*candidates)`: start `(None, inf)`, first
strictly-closer candidate wins.  The Point capability's comparison and
reported distance are one function `dist`, as in the generic
`Pointable` version of the tree. -/
def getClosestPoint (q : Pt) (cands : List PPt) : Option PPt × WithTop Rat :=
  cands.foldl (gcpStep dist q) (none, ⊤)

/-- The body of `KDNode.nearest` once `_get_next_other_branch` has
chosen the near branch `nb` and far branch `ob`.  `nbRes`/`obRes` are
the recursive results for the two children — pure values, so passing
both is observationally the Python behaviour; the prune test
`best_d >= s_d` decides whether `obRes` is used.  `temp` is
`_get_temp_point`; the remainder is `_backtrack`, including its
`if temp`/`if temp and best` guards. -/
def nearestGo (q pt : Pt) (lvl : Axis) (nb ob : KD)
    (nbRes obRes : Option PPt × WithTop Rat) : Option PPt × WithTop Rat :=
  let temp : Option PPt :=
    match nb with
    | .nil => some PPt.inf
    | _ => nbRes.1
  let bb : Option PPt × WithTop Rat :=
    match temp with
    | none => (none, ⊤)
    | some tp => getClosestPoint dist q [tp, PPt.fin pt]
  let sd : Rat := |coord q lvl - coord pt lvl|
  if bb.2 ≥ (sd : WithTop Rat) ∧ ob ≠ KD.nil then
    match obRes.1, bb.1 with
    | some t2, some b => getClosestPoint dist q [t2, b]
    | _, _ => (none, ⊤)
  else bb

/-- Python `KDNode.nearest` (`nil` yields `KDTree.nearest`'s
`(None, inf)`). -/
def nearestKD : KD → Pt → Option PPt × WithTop Rat
  | .nil, _ => (none, ⊤)
  | .node pt lvl l r, q =>
      if coord q lvl < coord pt lvl then
        nearestGo dist q pt lvl l r (nearestKD l q) (nearestKD r q)
      else
        nearestGo dist q pt lvl r l (nearestKD r q) (nearestKD l q)

end KDNearest

/-- Python `KDTree`: root, node count and the running bound. -/
structure KDT where
  root : KD
  weight : Nat
  bound : Bound
deriving DecidableEq, Repr

/-- A fresh `KDTree()` (empty root, weight 0, infinite bound). -/
def kdtEmpty : KDT := { root := .nil, weight := 0, bound := .infinite }

/-- Python `KDTree._remap_min_max`. -/
def remapMinMax (b : Bound) (p : Pt) : Bound :=
  { min_x := min b.min_x (qc p.x)
    min_y := min b.min_y (qc p.y)
    max_x := max b.max_x (qc p.x)
    max_y := max b.max_y (qc p.y) }

/-- Python `KDTree.add`: a first point becomes the root and the method
returns at once — without `_remap_min_max`, so the running bound does
not cover it. -/
def kdtAdd (t : KDT) (p : Pt) : KDT :=
  match t.root with
  | .nil => { root := .node p .x .nil .nil, weight := t.weight + 1, bound := t.bound }
  | root => { root := root.add p, weight := t.weight + 1, bound := remapMinMax t.bound p }

/-- A `KDTree` populated by successive `add` calls. -/
def kdtBuild (ps : List Pt) : KDT := ps.foldl kdtAdd kdtEmpty

/-- Python `KDTree.nearest`. -/
def kdtNearest (dist : Pt → Pt → Rat) (t : KDT) (q : Pt) : Option PPt × WithTop Rat :=
  match t.root with
  | .nil => (none, ⊤)
  | root => nearestKD dist root q

/-- The recursive `append_median` of the `build/lib` `KDTree.add_all`:
the median by the current coordinate, then both halves on the other
coordinate.  Fuel bounds the recursion; the halves are strictly
shorter, so `pts.length` fuel suffices. -/
def kdAppendMedian : Nat → List Pt → Axis → List Pt
  | 0, _, _ => []
  | fuel + 1, pts, ax =>
      if pts.length = 0 then []
      else
        match QS.medianWithLeftRight (fun p => coord p ax) ⟨0, 0⟩ pts with
        | (left, mid, right) =>
            (match mid with
             | some m => [m]
             | none => []) ++
            (kdAppendMedian fuel left ax.next ++ kdAppendMedian fuel right ax.next)

/-- The `build/lib` `KDTree.add_all(*points)`: median-reorder, then — on
an empty tree — `sorted_points.pop(0)` becomes the root (`IndexError:
pop from empty list` when the input collection is empty) and the rest
are added with bound updates. -/
def kdtAddAll (t : KDT) (pts : List Pt) : Except PyErr KDT :=
  let sorted := kdAppendMedian pts.length pts .x
  match t.root with
  | .nil =>
      match sorted with
      | [] => .error .indexError
      | p :: rest =>
          let t1 : KDT :=
            { root := .node p .x .nil .nil, weight := t.weight + 1, bound := t.bound }
          .ok (rest.foldl (fun acc q =>
            { root := acc.root.add q, weight := acc.weight + 1,
              bound := remapMinMax acc.bound q }) t1)
  | _ =>
      .ok (sorted.foldl (fun acc q =>
        { root := acc.root.add q, weight := acc.weight + 1,
          bound := remapMinMax acc.bound q }) t)

/-! ## Bounding-box index (`structures/bounds_tree.py`)

The Shape capability is abstract: `sContains` models
`shape.contains(point)` and `sBound` models
`Bound.get_bound_from_shape(shape)`.  A key source detail:
`BoundsNode.__init__` sets `self.big_bound = self.bound` — one shared
`Bound` object — and `add` mutates it in place via `merge_with`, so a
node's `bound` and `big_bound` always hold the same box; the model
updates both fields identically, and the descend comparison reads the
already-merged `self.bound`. -/

inductive L4 where
  | min_x
  | min_y
  | max_x
  | max_y
deriving DecidableEq, Repr

/-- Python `BoundsNode.next_level`:
`min_x -> min_y -> max_x -> max_y -> min_x`. -/
def L4.next : L4 → L4
  | .min_x => .min_y
  | .min_y => .max_x
  | .max_x => .max_y
  | .max_y => .min_x

/-- The `append_median` level cycle inside `BoundsTree.add_all` — not
the node cycle: its `else` branch sends `max_y` back to `max_x`. -/
def L4.nextAM : L4 → L4
  | .min_x => .min_y
  | .min_y => .max_x
  | .max_x => .max_y
  | .max_y => .max_x

/-- Python `getattr(bound, level)`. -/
def levelVal (b : Bound) : L4 → Qext
  | .min_x => b.min_x
  | .min_y => b.min_y
  | .max_x => b.max_x
  | .max_y => b.max_y

/-- Python `Optional[BoundsNode[T]]`. -/
inductive BT (S V : Type) where
  | nil
  | node (shape : S) (value : V) (bound big_bound : Bound) (level : L4)
      (left right : BT S V)
deriving DecidableEq, Repr

section BoundsTree

variable {S V : Type} (sContains : S → Pt → Bool) (sBound : S → Bound)

/-- Python `BoundsNode.add` (a node method; `nil` is unreachable).  The
new shape's box is merged into the shared bound/big_bound object before
the descend comparison reads `self.bound`. -/
def btAdd : BT S V → S → V → BT S V
  | .nil, _, _ => .nil
  | .node sh v bd bb lvl l r, s, val =>
      let nb := sBound s
      let bd2 := bd.mergeWith nb
      let bb2 := bb.mergeWith nb
      if levelVal nb lvl ≤ levelVal bd2 lvl then
        match l with
        | .nil => .node sh v bd2 bb2 lvl (.node s val nb nb lvl.next .nil .nil) r
        | _ => .node sh v bd2 bb2 lvl (btAdd l s val) r
      else
        match r with
        | .nil => .node sh v bd2 bb2 lvl l (.node s val nb nb lvl.next .nil .nil)
        | _ => .node sh v bd2 bb2 lvl l (btAdd r s val)

/-- The recursive helper of `BoundsTree.find_shape` with the `value[0]`
cell made an explicit accumulator: a later assignment (during the right
recursion) overwrites an earlier one. -/
def findShapeAcc (q : Pt) : Option V → BT S V → Option V
  | acc, .nil => acc
  | acc, .node sh v _ bb _ l r =>
      if ¬ (bb.containsP q = true) then acc
      else if ¬ (sContains sh q = true) then findShapeAcc q (findShapeAcc q acc l) r
      else some v

/-- Python `BoundsTree.find_shape`. -/
def findShape (q : Pt) (t : BT S V) : Option V := findShapeAcc sContains q none t

/-- Python `BoundsTree`: root, node count and running big bound. -/
structure BTT (S V : Type) where
  root : BT S V
  weight : Nat
  big_bound : Bound
deriving DecidableEq, Repr

/-- A fresh `BoundsTree()`. -/
def bttEmpty : BTT S V := { root := .nil, weight := 0, big_bound := .infinite }

/-- The recursive `append_median` inside `BoundsTree.add_all`: the
comparator reads the shape's box edge named by the level; the level
cycle is `L4.nextAM`.  Fuel as in `kdAppendMedian`. -/
def btAppendMedian [Inhabited S] [Inhabited V] : Nat → List (S × V) → L4 → List (S × V)
  | 0, _, _ => []
  | fuel + 1, ps, lvl =>
      if ps.length = 0 then []
      else
        match QS.medianWithLeftRight (fun sv => levelVal (sBound sv.1) lvl) default ps with
        | (left, mid, right) =>
            (match mid with
             | some m => [m]
             | none => []) ++
            (btAppendMedian fuel left lvl.nextAM ++ btAppendMedian fuel right lvl.nextAM)

/-- Python `BoundsTree.add_all(shapes, values)`: zip, median-reorder,
then `sorted_zip[0]` becomes a fresh root (an `IndexError: list index
out of range` when the input is empty) and the rest are `add`ed while
the tree's `big_bound` merges each shape's box.  The tree's `big_bound`
starts from `shapes[0]`, not from `sorted_zip[0]`. -/
def btAddAll [Inhabited S] [Inhabited V] (t : BTT S V) (shapes : List S)
    (values : List V) : Except PyErr (BTT S V) :=
  let zipped := shapes.zip values
  let sorted := btAppendMedian sBound zipped.length zipped .min_x
  match t.root with
  | .nil =>
      match sorted with
      | [] => .error .indexError
      | (s, v) :: rest =>
          let sb0 : Bound :=
            match shapes with
            | s0 :: _ => sBound s0
            | [] => sBound s
          let t1 : BTT S V :=
            { root := .node s v (sBound s) (sBound s) .min_x .nil .nil,
              weight := t.weight + 1, big_bound := sb0 }
          .ok (rest.foldl (fun acc sv =>
            { root := btAdd sBound acc.root sv.1 sv.2, weight := acc.weight + 1,
              big_bound := acc.big_bound.mergeWith (sBound sv.1) }) t1)
  | _ =>
      .ok (sorted.foldl (fun acc sv =>
        { root := btAdd sBound acc.root sv.1 sv.2, weight := acc.weight + 1,
          big_bound := acc.big_bound.mergeWith (sBound sv.1) }) t)

/-- Every (shape, value) pair stored in the tree (root first). -/
def shapesB : BT S V → List (S × V)
  | .nil => []
  | .node sh v _ _ _ l r => (sh, v) :: (shapesB l ++ shapesB r)

/-- The node's own tight box (`None` for an empty tree). -/
def rootBound : BT S V → Option Bound
  | .nil => none
  | .node _ _ bd _ _ _ _ => some bd

/-- Box inclusion: `b1` lies inside `b2`. -/
def boundSub (b1 b2 : Bound) : Prop :=
  b2.min_x ≤ b1.min_x ∧ b1.max_x ≤ b2.max_x ∧ b2.min_y ≤ b1.min_y ∧ b1.max_y ≤ b2.max_y

/-- The pruning invariant: every node's `big_bound` covers the box of
every shape in its subtree. -/
def coverB : BT S V → Prop
  | .nil => True
  | .node sh v bd bb lvl l r =>
      (∀ sv ∈ shapesB (BT.node sh v bd bb lvl l r), boundSub (sBound sv.1) bb) ∧
      coverB l ∧ coverB r

/-- The aliasing invariant: every node's `bound` equals its
`big_bound` (in Python they are one object). -/
def eqBB : BT S V → Prop
  | .nil => True
  | .node _ _ bd bb _ l r => bd = bb ∧ eqBB l ∧ eqBB r

/-- What one `insert(shape, value)` does to a tree: every node on the
descent path keeps its shape, value and level and has the new shape's
box merged into both its `bound` and its `big_bound` (one aliased
object); the child not descended into is untouched; the insertion point
gains a fresh leaf carrying the new shape's own box. -/
def AddPath (s : S) (v : V) (nb : Bound) : BT S V → BT S V → Prop
  | .nil, t2 => t2 = .nil
  | .node sh0 v0 bd bb lvl l r, t2 =>
      ∃ l2 r2, t2 = .node sh0 v0 (bd.mergeWith nb) (bb.mergeWith nb) lvl l2 r2 ∧
        ((r2 = r ∧ ((l = .nil ∧ l2 = .node s v nb nb lvl.next .nil .nil) ∨
             (l ≠ .nil ∧ AddPath s v nb l l2))) ∨
         (l2 = l ∧ ((r = .nil ∧ r2 = .node s v nb nb lvl.next .nil .nil) ∨
             (r ≠ .nil ∧ AddPath s v nb r r2))))

end BoundsTree

/-- A capability distance that violates the per-axis dominance the
prune test needs: a metric scaled into units one thousandth of the
coordinate units (the shape of the degree-versus-kilometre mismatch of
`GeoPt`). -/
def distTiny (a b : Pt) : Rat := (|a.x - b.x| + |a.y - b.y|) / 1000

/-- The taxicab capability distance, which dominates each coordinate
difference. -/
def distL1 (a b : Pt) : Rat := |a.x - b.x| + |a.y - b.y|

/-- The tree grown by `add((0,0))`, `add((5,50))`, `add((0,50))`. -/
def kdCounterTree : KDT := kdtBuild [⟨0, 0⟩, ⟨5, 50⟩, ⟨0, 50⟩]

/-- Scenario C shapes: rectangles serve as concrete Shape capabilities,
with `contains` the inclusive box test and the box itself as bound. -/
def demoShapes : List Bound := [Bound.ofRat 0 1 0 1, Bound.ofRat 5 6 5 6]

/-- Values associated with the two demo squares. -/
def demoValues : List Nat := [10, 20]

/-- The Bounding-Box Index built from the two demo squares. -/
def demoBTT : BTT Bound Nat :=
  match btAddAll (fun b => b) bttEmpty demoShapes demoValues with
  | .ok t => t
  | .error _ => bttEmpty

end Geo


/-! ## Theorems -/

namespace Geo

open AVL

/-! ### Ordered-multiset lemmas -/

theorem toML_setHW {α : Type} (t : AVL α) : toML (setHW t) = toML t := by
  cases t <;> rfl

theorem toML_leftRotate {α : Type} (t : AVL α) : toML (leftRotate t) = toML t := by
  cases t with
  | nil => rfl
  | node v l r h c w =>
      cases r with
      | nil => rfl
      | node rv rl rr rh rc rw => simp [leftRotate, toML_setHW, toML, List.append_assoc]

theorem toML_rightRotate {α : Type} (t : AVL α) : toML (rightRotate t) = toML t := by
  cases t with
  | nil => rfl
  | node v l r h c w =>
      cases l with
      | nil => rfl
      | node lv ll lr lh lc lw => simp [rightRotate, toML_setHW, toML, List.append_assoc]

theorem toML_withLeft_rot {α : Type} (t : AVL α) :
    toML (withLeft t (leftRotate (leftOf t))) = toML t := by
  cases t with
  | nil => rfl
  | node v l r h c w => simp [withLeft, leftOf, toML, toML_leftRotate]

theorem toML_withRight_rot {α : Type} (t : AVL α) :
    toML (withRight t (rightRotate (rightOf t))) = toML t := by
  cases t with
  | nil => rfl
  | node v l r h c w => simp [withRight, rightOf, toML, toML_rightRotate]

theorem toML_rebalanceIns {α : Type} [LinearOrder α] (k : α) (t : AVL α) :
    toML (rebalanceIns k t) = toML t := by
  unfold rebalanceIns
  dsimp only
  split_ifs <;>
    simp [toML_leftRotate, toML_rightRotate, toML_withLeft_rot, toML_withRight_rot, toML_setHW]

theorem toML_rebalanceDel {α : Type} (t : AVL α) : toML (rebalanceDel t) = toML t := by
  unfold rebalanceDel
  dsimp only
  split_ifs <;>
    simp [toML_leftRotate, toML_rightRotate, toML_withLeft_rot, toML_withRight_rot, toML_setHW]

theorem bst_setHW {α : Type} [LinearOrder α] {t : AVL α} (h : Bst t) : Bst (setHW t) := by
  cases t with
  | nil => trivial
  | node v l r h c w => exact h

theorem bst_leftRotate {α : Type} [LinearOrder α] {t : AVL α} (h : Bst t) :
    Bst (leftRotate t) := by
  cases t with
  | nil => trivial
  | node v l r hh c w =>
      cases r with
      | nil => exact h
      | node rv rl rr rh rc rw =>
          obtain ⟨hc, hl, hr, hbl, ⟨hrc, hrl, hrr, hbrl, hbrr⟩⟩ := h
          have hvrv : v < rv := by
            apply hr
            simp [toML, List.mem_replicate, hrc.ne']
          simp only [leftRotate]
          refine bst_setHW ⟨hrc, ?_, hrr, bst_setHW ⟨hc, hl, ?_, hbl, hbrl⟩, hbrr⟩
          · intro x hx
            rw [toML_setHW] at hx
            simp only [toML, List.mem_append] at hx
            rcases hx with hx | hx | hx
            · exact lt_trans (hl x hx) hvrv
            · rw [List.eq_of_mem_replicate hx]; exact hvrv
            · exact hrl x hx
          · intro x hx
            apply hr
            simp [toML, hx]

theorem bst_rightRotate {α : Type} [LinearOrder α] {t : AVL α} (h : Bst t) :
    Bst (rightRotate t) := by
  cases t with
  | nil => trivial
  | node v l r hh c w =>
      cases l with
      | nil => exact h
      | node lv ll lr lh lc lw =>
          obtain ⟨hc, hl, hr, ⟨hlc, hll, hlr, hbll, hblr⟩, hbr⟩ := h
          have hlvv : lv < v := by
            apply hl
            simp [toML, List.mem_replicate, hlc.ne']
          simp only [rightRotate]
          have hinner : Bst (.node v lr r hh c w) := by
            refine ⟨hc, ?_, hr, hblr, hbr⟩
            intro x hx
            apply hl
            simp [toML, hx]
          refine bst_setHW ⟨hlc, hll, ?_, hbll, bst_setHW hinner⟩
          intro x hx
          rw [toML_setHW] at hx
          simp only [toML, List.mem_append] at hx
          rcases hx with hx | hx | hx
          · exact hlr x hx
          · rw [List.eq_of_mem_replicate hx]; exact hlvv
          · exact lt_trans hlvv (hr x hx)

theorem bst_withLeft_rot {α : Type} [LinearOrder α] {t : AVL α} (h : Bst t) :
    Bst (withLeft t (leftRotate (leftOf t))) := by
  cases t with
  | nil => trivial
  | node v l r hh c w =>
      obtain ⟨hc, hl, hr, hbl, hbr⟩ := h
      refine ⟨hc, ?_, hr, bst_leftRotate hbl, hbr⟩
      intro x hx
      rw [toML_leftRotate] at hx
      exact hl x hx

theorem bst_withRight_rot {α : Type} [LinearOrder α] {t : AVL α} (h : Bst t) :
    Bst (withRight t (rightRotate (rightOf t))) := by
  cases t with
  | nil => trivial
  | node v l r hh c w =>
      obtain ⟨hc, hl, hr, hbl, hbr⟩ := h
      refine ⟨hc, hl, ?_, hbl, bst_rightRotate hbr⟩
      intro x hx
      rw [toML_rightRotate] at hx
      exact hr x hx

theorem bst_rebalanceIns {α : Type} [LinearOrder α] (k : α) {t : AVL α} (h : Bst t) :
    Bst (rebalanceIns k t) := by
  unfold rebalanceIns
  dsimp only
  split_ifs
  · exact bst_rightRotate (bst_setHW h)
  · exact bst_leftRotate (bst_setHW h)
  · exact bst_rightRotate (bst_withLeft_rot (bst_setHW h))
  · exact bst_leftRotate (bst_withRight_rot (bst_setHW h))
  · exact bst_setHW h

theorem bst_rebalanceDel {α : Type} [LinearOrder α] {t : AVL α} (h : Bst t) :
    Bst (rebalanceDel t) := by
  unfold rebalanceDel
  dsimp only
  split_ifs
  · exact bst_rightRotate (bst_setHW h)
  · exact bst_leftRotate (bst_setHW h)
  · exact bst_rightRotate (bst_withLeft_rot (bst_setHW h))
  · exact bst_leftRotate (bst_withRight_rot (bst_setHW h))
  · exact bst_setHW h

theorem toML_insertH {α : Type} [LinearOrder α] (t : AVL α) (k : α) :
    (toML (insertH t k)).Perm (k :: toML t) := by
  induction t with
  | nil => simp [insertH, toML]
  | node v l r h c w ihl ihr =>
      by_cases h1 : k < v
      · rw [insertH, if_pos h1, toML_rebalanceIns]
        simpa [toML] using ihl.append_right (List.replicate c v ++ toML r)
      · by_cases h2 : v < k
        · rw [insertH, if_neg h1, if_pos h2, toML_rebalanceIns]
          simp only [toML]
          refine ((ihr.append_left (List.replicate c v)).append_left (toML l)).trans ?_
          simpa using @List.perm_middle _ k
            (toML l ++ List.replicate c v) (toML r)
        · have hk : k = v := le_antisymm (not_lt.mp h2) (not_lt.mp h1)
          rw [insertH, if_neg h1, if_neg h2, toML_rebalanceIns]
          subst hk
          simp only [toML, List.replicate_succ]
          simp only [List.cons_append]
          exact @List.perm_middle _ k
            (toML l) (List.replicate c k ++ toML r)

theorem bst_insertH {α : Type} [LinearOrder α] {t : AVL α} (h : Bst t) (k : α) :
    Bst (insertH t k) := by
  induction t with
  | nil => exact ⟨Nat.one_pos, by simp [toML], by simp [toML], trivial, trivial⟩
  | node v l r hh c w ihl ihr =>
      obtain ⟨hc, hl, hr, hbl, hbr⟩ := h
      by_cases h1 : k < v
      · rw [insertH, if_pos h1]
        refine bst_rebalanceIns k ⟨hc, ?_, hr, ihl hbl, hbr⟩
        intro x hx
        rcases List.mem_cons.mp ((toML_insertH l k).mem_iff.mp hx) with hx | hx
        · rw [hx]; exact h1
        · exact hl x hx
      · by_cases h2 : v < k
        · rw [insertH, if_neg h1, if_pos h2]
          refine bst_rebalanceIns k ⟨hc, hl, ?_, hbl, ihr hbr⟩
          intro x hx
          rcases List.mem_cons.mp ((toML_insertH r k).mem_iff.mp hx) with hx | hx
          · rw [hx]; exact h2
          · exact hr x hx
        · rw [insertH, if_neg h1, if_neg h2]
          exact bst_rebalanceIns k ⟨Nat.succ_pos c, hl, hr, hbl, hbr⟩

theorem bst_avlBuild {α : Type} [LinearOrder α] (xs : List α) : Bst (avlBuild xs) := by
  suffices h : ∀ (t : AVL α), Bst t → Bst (xs.foldl avlInsert t) from h .nil trivial
  induction xs with
  | nil => exact fun t ht => ht
  | cons x xs ih => exact fun t ht => ih (avlInsert t x) (bst_insertH ht x)

theorem toML_avlBuild {α : Type} [LinearOrder α] (xs : List α) :
    (toML (avlBuild xs)).Perm xs := by
  suffices h : ∀ (t : AVL α), (toML (xs.foldl avlInsert t)).Perm (xs.reverse ++ toML t) by
    have h2 := h .nil
    simp only [toML, List.append_nil] at h2
    exact h2.trans (List.reverse_perm xs)
  induction xs with
  | nil => exact fun t => List.Perm.refl _
  | cons x xs ih =>
      intro t
      refine ((ih (avlInsert t x)).trans ?_)
      refine ((toML_insertH t x).append_left xs.reverse).trans ?_
      have h3 : xs.reverse ++ x :: toML t = (x :: xs).reverse ++ toML t := by simp
      exact h3 ▸ List.Perm.refl _

theorem gtVal_ne_nil {α : Type} [LinearOrder α] {k : α} {t : AVL α} (h : gtVal k t = true) :
    t ≠ .nil := by
  cases t <;> simp [gtVal] at h ⊢

theorem ltVal_ne_nil {α : Type} [LinearOrder α] {k : α} {t : AVL α} (h : ltVal k t = true) :
    t ≠ .nil := by
  cases t <;> simp [ltVal] at h ⊢

theorem getBalance_neg_ne_nil {α : Type} {t : AVL α} (h : getBalance t < 0) : t ≠ .nil := by
  cases t <;> simp [getBalance] at h ⊢

theorem getBalance_pos_ne_nil {α : Type} {t : AVL α} (h : getBalance t > 0) : t ≠ .nil := by
  cases t <;> simp [getBalance] at h ⊢

theorem leftRotate_ne_nil {α : Type} {t : AVL α} (h : t ≠ .nil) : leftRotate t ≠ .nil := by
  cases t with
  | nil => exact absurd rfl h
  | node v l r hh c w => cases r <;> simp [leftRotate, setHW]

theorem rightRotate_ne_nil {α : Type} {t : AVL α} (h : t ≠ .nil) : rightRotate t ≠ .nil := by
  cases t with
  | nil => exact absurd rfl h
  | node v l r hh c w => cases l <;> simp [rightRotate, setHW]

theorem hw_leftRotate_of_children {α : Type} {v : α} {l r : AVL α} {h c w : Nat}
    (hl : Hw l) (hr : Hw r) (hne : r ≠ .nil) : Hw (leftRotate (.node v l r h c w)) := by
  cases r with
  | nil => exact absurd rfl hne
  | node rv rl rr rh rc rw =>
      obtain ⟨-, -, hrl, hrr⟩ := hr
      exact ⟨rfl, rfl, ⟨rfl, rfl, hl, hrl⟩, hrr⟩

theorem hw_rightRotate_of_children {α : Type} {v : α} {l r : AVL α} {h c w : Nat}
    (hl : Hw l) (hr : Hw r) (hne : l ≠ .nil) : Hw (rightRotate (.node v l r h c w)) := by
  cases l with
  | nil => exact absurd rfl hne
  | node lv ll lr lh lc lw =>
      obtain ⟨-, -, hll, hlr⟩ := hl
      exact ⟨rfl, rfl, hll, ⟨rfl, rfl, hlr, hr⟩⟩

theorem hw_leftRotate {α : Type} {t : AVL α} (h : Hw t) : Hw (leftRotate t) := by
  cases t with
  | nil => trivial
  | node v l r hh c w =>
      cases r with
      | nil => exact h
      | node rv rl rr rh rc rw =>
          exact hw_leftRotate_of_children h.2.2.1 h.2.2.2 (by simp)

theorem hw_rightRotate {α : Type} {t : AVL α} (h : Hw t) : Hw (rightRotate t) := by
  cases t with
  | nil => trivial
  | node v l r hh c w =>
      cases l with
      | nil => exact h
      | node lv ll lr lh lc lw =>
          exact hw_rightRotate_of_children h.2.2.1 h.2.2.2 (by simp)

theorem hw_rebalanceIns {α : Type} [LinearOrder α] (k : α) {v : α} {l r : AVL α}
    {h c w : Nat} (hl : Hw l) (hr : Hw r) : Hw (rebalanceIns k (.node v l r h c w)) := by
  have ht : Hw (setHW (.node v l r h c w)) := ⟨rfl, rfl, hl, hr⟩
  unfold rebalanceIns
  dsimp only
  split_ifs with h1 h2 h3 h4
  · exact hw_rightRotate ht
  · exact hw_leftRotate ht
  · simp only [Bool.and_eq_true] at h3
    have hne : leftOf (setHW (.node v l r h c w)) ≠ .nil := gtVal_ne_nil h3.2
    simp only [setHW, leftOf, withLeft] at hne ⊢
    exact hw_rightRotate_of_children (hw_leftRotate hl) hr (leftRotate_ne_nil hne)
  · simp only [Bool.and_eq_true] at h4
    have hne : rightOf (setHW (.node v l r h c w)) ≠ .nil := ltVal_ne_nil h4.2
    simp only [setHW, rightOf, withRight] at hne ⊢
    exact hw_leftRotate_of_children hl (hw_rightRotate hr) (rightRotate_ne_nil hne)
  · exact ht

theorem hw_rebalanceDel {α : Type} {v : α} {l r : AVL α} {h c w : Nat}
    (hl : Hw l) (hr : Hw r) : Hw (rebalanceDel (.node v l r h c w)) := by
  have ht : Hw (setHW (.node v l r h c w)) := ⟨rfl, rfl, hl, hr⟩
  unfold rebalanceDel
  dsimp only
  split_ifs with h1 h2 h3 h4
  · exact hw_rightRotate ht
  · exact hw_leftRotate ht
  · simp only [Bool.and_eq_true, decide_eq_true_eq] at h3
    have hne : leftOf (setHW (.node v l r h c w)) ≠ .nil := getBalance_neg_ne_nil h3.2
    simp only [setHW, leftOf, withLeft] at hne ⊢
    exact hw_rightRotate_of_children (hw_leftRotate hl) hr (leftRotate_ne_nil hne)
  · simp only [Bool.and_eq_true, decide_eq_true_eq] at h4
    have hne : rightOf (setHW (.node v l r h c w)) ≠ .nil := getBalance_pos_ne_nil h4.2
    simp only [setHW, rightOf, withRight] at hne ⊢
    exact hw_leftRotate_of_children hl (hw_rightRotate hr) (rightRotate_ne_nil hne)
  · exact ht

theorem hw_insertH {α : Type} [LinearOrder α] {t : AVL α} (h : Hw t) (k : α) :
    Hw (insertH t k) := by
  induction t with
  | nil => exact ⟨by simp [getHeight], by simp [getWeight], trivial, trivial⟩
  | node v l r hh c w ihl ihr =>
      obtain ⟨-, -, hl, hr⟩ := h
      rw [insertH]
      split_ifs
      · exact hw_rebalanceIns k (ihl hl) hr
      · exact hw_rebalanceIns k hl (ihr hr)
      · exact hw_rebalanceIns k hl hr

theorem hw_avlBuild {α : Type} [LinearOrder α] (xs : List α) : Hw (avlBuild xs) := by
  suffices h : ∀ (t : AVL α), Hw t → Hw (xs.foldl avlInsert t) from h .nil trivial
  induction xs with
  | nil => exact fun t ht => ht
  | cons x xs ih => exact fun t ht => ih (avlInsert t x) (hw_insertH ht x)

theorem getWeight_eq_length {α : Type} {t : AVL α} (h : Hw t) :
    getWeight t = (toML t).length := by
  induction t with
  | nil => rfl
  | node v l r hh c w ihl ihr =>
      obtain ⟨-, hw, hl, hr⟩ := h
      rw [show getWeight (AVL.node v l r hh c w) = w from rfl, hw, toML]
      simp only [List.length_append, List.length_replicate, ihl hl, ihr hr]
      omega

theorem countP_replicate_ite {α : Type} (p : α → Bool) (a : α) (n : Nat) :
    (List.replicate n a).countP p = if p a then n else 0 := by
  induction n with
  | zero => simp
  | succ n ih =>
      rw [List.replicate_succ, List.countP_cons, ih]
      by_cases h : p a <;> simp [h]

theorem rankH_eq_count_lt {α : Type} [LinearOrder α] {t : AVL α} (hw : Hw t) (hb : Bst t)
    (k : α) : rankH t k = ((toML t).countP (fun x => decide (x < k)) : Int) := by
  induction t with
  | nil => rfl
  | node v l r hh c w ihl ihr =>
      obtain ⟨-, hweq, hwl, hwr⟩ := hw
      obtain ⟨hc, hl, hr, hbl, hbr⟩ := hb
      simp only [toML, List.countP_append, countP_replicate_ite]
      by_cases h1 : k < v
      · rw [rankH, if_pos h1, ihl hwl hbl]
        have h2 : ¬(v < k) := fun hvk => absurd (lt_trans h1 hvk) (lt_irrefl k)
        have h3 : (toML r).countP (fun x => decide (x < k)) = 0 := by
          rw [List.countP_eq_zero]
          intro a ha
          simp only [decide_eq_true_eq]
          exact fun hak => absurd (lt_trans h1 (hr a ha)) (by simp [hak, lt_irrefl k, lt_asymm hak])
        simp [h2, h3]
      · by_cases h2 : v < k
        · rw [rankH, if_neg h1, if_pos h2, ihr hwr hbr,
            show getWeight (AVL.node v l r hh c w) = w from rfl, hweq,
            getWeight_eq_length hwl]
          have h3 : (toML l).countP (fun x => decide (x < k)) = (toML l).length := by
            rw [List.countP_eq_length]
            intro a ha
            simp only [decide_eq_true_eq]
            exact lt_trans (hl a ha) h2
          rw [h3]
          simp only [h2, decide_true_eq_true, if_pos]
          push_cast
          ring
        · have hk : k = v := le_antisymm (not_lt.mp h2) (not_lt.mp h1)
          rw [rankH, if_neg h1, if_neg h2]
          have h3 : (toML l).countP (fun x => decide (x < k)) = (toML l).length := by
            rw [List.countP_eq_length]
            intro a ha
            simp only [decide_eq_true_eq]
            exact hk ▸ hl a ha
          have h4 : (toML r).countP (fun x => decide (x < k)) = 0 := by
            rw [List.countP_eq_zero]
            intro a ha
            simp only [decide_eq_true_eq]
            exact fun hak => absurd (lt_trans (hk ▸ hr a ha) hak) (lt_irrefl k)
          have h5 : ¬(v < k) := hk ▸ lt_irrefl v
          simp [getWeight_eq_length hwl, h3, h4, h5]

theorem toML_ne_nil {α : Type} [LinearOrder α] {v : α} {l r : AVL α} {h c w : Nat}
    (hb : Bst (.node v l r h c w)) : toML (.node v l r h c w) ≠ [] := by
  obtain ⟨hc, -, -, -, -⟩ := hb
  simp [toML, List.append_eq_nil, List.replicate_eq_nil_iff, hc.ne']

theorem getMinValue_eq_head {α : Type} [LinearOrder α] {t : AVL α} (hb : Bst t) :
    getMinValue t = (toML t).head? := by
  induction t with
  | nil => rfl
  | node v l r hh c w ihl ihr =>
      obtain ⟨hc, hl, hr, hbl, hbr⟩ := hb
      cases l with
      | nil =>
          obtain ⟨c, rfl⟩ : ∃ d, c = d + 1 := ⟨c - 1, by omega⟩
          simp [getMinValue, toML, List.replicate_succ]
      | node lv ll lr llh llc llw =>
          rw [getMinValue, ihl hbl]
          obtain ⟨a, as, ha⟩ := List.exists_cons_of_ne_nil (toML_ne_nil hbl)
          rw [show toML (AVL.node v (AVL.node lv ll lr llh llc llw) r hh c w)
              = toML (AVL.node lv ll lr llh llc llw) ++ (List.replicate c v ++ toML r)
            from rfl, ha]
          simp

theorem toML_deleteMin {α : Type} [LinearOrder α] {t : AVL α} (hb : Bst t) {m : α}
    (hm : getMinValue t = some m) :
    toML (deleteH t m) = (toML t).tail ∧ Bst (deleteH t m) := by
  induction t with
  | nil => simp [getMinValue] at hm
  | node v l r hh c w ihl ihr =>
      obtain ⟨hc, hl, hr, hbl, hbr⟩ := hb
      cases l with
      | nil =>
          have hmv : m = v := by
            rw [getMinValue] at hm
            exact (Option.some_injective _ hm).symm
          subst hmv
          rw [deleteH, if_neg (lt_irrefl m), if_neg (lt_irrefl m)]
          by_cases h1 : c > 1
          · rw [if_pos h1]
            constructor
            · rw [toML_rebalanceDel]
              obtain ⟨d, rfl⟩ : ∃ d, c = d + 1 := ⟨c - 1, by omega⟩
              simp [toML, List.replicate_succ]
            · exact bst_rebalanceDel ⟨by omega, by simp [toML], hr, trivial, hbr⟩
          · rw [if_neg h1]
            have hc1 : c = 1 := by omega
            subst hc1
            cases r with
            | nil => exact ⟨by simp [toML, List.replicate_succ], trivial⟩
            | node rv rl rr rrh rrc rrw =>
                refine ⟨?_, hbr⟩
                simp [toML, List.replicate_succ]
      | node lv ll lr llh llc llw =>
          rw [getMinValue] at hm
          have hmem : m ∈ toML (.node lv ll lr llh llc llw) := by
            rw [getMinValue_eq_head hbl] at hm
            exact List.mem_of_mem_head? hm
          have hmv : m < v := hl m hmem
          obtain ⟨hml, hbd⟩ := ihl hbl hm
          rw [deleteH.eq_def]
          dsimp only
          rw [if_pos hmv]
          constructor
          · rw [toML_rebalanceDel]
            obtain ⟨a, as, ha⟩ := List.exists_cons_of_ne_nil (toML_ne_nil hbl)
            have e1 : toML (AVL.node v (deleteH (AVL.node lv ll lr llh llc llw) m) r hh c w)
                = toML (deleteH (AVL.node lv ll lr llh llc llw) m)
                  ++ (List.replicate c v ++ toML r) := rfl
            have e2 : toML (AVL.node v (AVL.node lv ll lr llh llc llw) r hh c w)
                = toML (AVL.node lv ll lr llh llc llw)
                  ++ (List.replicate c v ++ toML r) := rfl
            rw [e1, e2, hml, ha]
            rfl
          · refine bst_rebalanceDel ⟨hc, ?_, hr, hbd, hbr⟩
            intro x hx
            rw [hml] at hx
            exact hl x (List.mem_of_mem_tail hx)

theorem pqDeqList_eq_toML {α : Type} [LinearOrder α] :
    ∀ (n : Nat) (t : AVL α), Bst t → (toML t).length = n → pqDeqList n t = toML t := by
  intro n
  induction n with
  | zero =>
      intro t _ hlen
      rw [pqDeqList, (List.length_eq_zero.mp hlen).symm]
  | succ n ih =>
      intro t hb hlen
      cases t with
      | nil => simp [toML] at hlen
      | node v l r hh c w =>
          have hne := toML_ne_nil hb
          have hm : getMinValue (AVL.node v l r hh c w) = (toML (AVL.node v l r hh c w)).head? :=
            getMinValue_eq_head hb
          obtain ⟨a, as, ha⟩ := List.exists_cons_of_ne_nil hne
          rw [ha] at hm
          simp only [List.head?_cons] at hm
          obtain ⟨hdel, hbd⟩ := toML_deleteMin hb hm
          rw [pqDeqList]
          simp only [hm]
          have hlen2 : (toML (deleteH (AVL.node v l r hh c w) a)).length = n := by
            rw [hdel, ha]
            simpa [ha] using congrArg (fun l => l - 1) hlen
          rw [show avlDelete (AVL.node v l r hh c w) a = deleteH (AVL.node v l r hh c w) a
            from rfl, ih _ hbd hlen2, hdel, ha]
          rfl

theorem sorted_replicate {α : Type} [LinearOrder α] (n : Nat) (a : α) :
    (List.replicate n a).Sorted (fun x y => x ≤ y) := by
  induction n with
  | zero => simp
  | succ n ih =>
      rw [List.replicate_succ, List.sorted_cons]
      exact ⟨fun b hb => by rw [List.eq_of_mem_replicate hb], ih⟩

theorem sorted_toML {α : Type} [LinearOrder α] {t : AVL α} (hb : Bst t) :
    (toML t).Sorted (fun x y => x ≤ y) := by
  induction t with
  | nil => simp [toML]
  | node v l r hh c w ihl ihr =>
      obtain ⟨hc, hl, hr, hbl, hbr⟩ := hb
      rw [toML]
      show List.Pairwise (fun x y => x ≤ y) (toML l ++ (List.replicate c v ++ toML r))
      rw [List.pairwise_append]
      refine ⟨ihl hbl, ?_, ?_⟩
      · rw [List.pairwise_append]
        refine ⟨sorted_replicate c v, ihr hbr, ?_⟩
        intro x hx y hy
        rw [List.eq_of_mem_replicate hx]
        exact le_of_lt (hr y hy)
      · intro x hx y hy
        rcases List.mem_append.mp hy with hy | hy
        · rw [List.eq_of_mem_replicate hy]
          exact le_of_lt (hl x hx)
        · exact le_of_lt (lt_trans (hl x hx) (hr y hy))

/-- C3 (amended): on every insert-built Ordered Multiset state,
`get_rank(k)` equals 1 plus the number of stored keys, counting
duplicates, that are strictly less than `k` — not the number of keys
`<= k`, which it undercounts whenever the queried key's own duplicate
count exceeds 1 (and the `delete` defect of C4 can additionally corrupt
the one-node-per-key search invariant this formula relies on). -/
theorem getRank_eq_one_add_count_lt {α : Type} [LinearOrder α] (xs : List α) (k : α) :
    getRank (avlBuild xs) k = 1 + (xs.countP (fun x => decide (x < k)) : Int) := by
  rw [getRank, rankH_eq_count_lt (hw_avlBuild xs) (bst_avlBuild xs),
    List.Perm.countP_eq _ (toML_avlBuild xs)]
  ring

/-- C5: enqueueing each element of a finite sequence into a plain
`PriorityQueue` and then dequeueing `n` times (until the queue is
empty) yields the keys in non-decreasing order, a sorted copy of the
input sequence with duplicates included. -/
theorem pq_enq_then_deq_sorted {α : Type} [LinearOrder α] (xs : List α) :
    (pqDrain xs).Sorted (fun a b => a ≤ b) ∧ (pqDrain xs).Perm xs := by
  have hb := bst_avlBuild xs
  have hp := toML_avlBuild xs
  have hd : pqDrain xs = toML (avlBuild xs) := by
    rw [pqDrain, show xs.length = (toML (avlBuild xs)).length from hp.length_eq.symm]
    exact pqDeqList_eq_toML _ _ hb rfl
  rw [hd]
  exact ⟨sorted_toML hb, hp⟩

/-- C9: Scenario B.  Inserting `[5,3,8,3,1]` into a fresh Ordered
Multiset gives `get_rank(3) == 2`; after one `delete(3)` the node for
key `3` is still present with duplicate count 1 and `get_rank(3)` is
unchanged; after a second `delete(3)` the node for key `3` is gone and
`in_order()` returns `[1,5,8]`. -/
theorem scenarioB_holds :
    getRank (avlBuild ([5, 3, 8, 3, 1] : List Int)) 3 = 2 ∧
    nodesWith (avlDelete (avlBuild ([5, 3, 8, 3, 1] : List Int)) 3) 3 = 1 ∧
    (toML (avlDelete (avlBuild ([5, 3, 8, 3, 1] : List Int)) 3)).count 3 = 1 ∧
    getRank (avlDelete (avlBuild ([5, 3, 8, 3, 1] : List Int)) 3) 3 = 2 ∧
    nodesWith (avlDelete (avlDelete (avlBuild ([5, 3, 8, 3, 1] : List Int)) 3) 3) 3 = 0 ∧
    inOrder (avlDelete (avlDelete (avlBuild ([5, 3, 8, 3, 1] : List Int)) 3) 3) = [1, 5, 8] := by
  decide

/-- C4: deleting a two-child node whose in-order successor has duplicate
count 2 copies the successor's full count into the deleted slot but then
only decrements the successor node, leaving the key `3` stored in two
nodes at once and growing its total multiplicity from 2 to 3. -/
theorem avl_delete_splits_duplicate_key :
    nodesWith (avlDelete (avlBuild ([2, 1, 3, 3] : List Int)) 2) 3 = 2 ∧
    toML (avlDelete (avlBuild ([2, 1, 3, 3] : List Int)) 2) = [1, 3, 3, 3] := by
  decide

/-- C3 counterexample: after inserting the key `3` twice, the stored
keys `<= 3` counting duplicates number 2, but `get_rank(3)` returns 1
(the rank ignores the queried key's own duplicate count). -/
theorem getRank_ignores_duplicates_of_key :
    ((toML (avlBuild ([3, 3] : List Int))).count 3 = 2 ∧
      3 ∈ toML (avlBuild ([3, 3] : List Int))) ∧
    getRank (avlBuild ([3, 3] : List Int)) 3 = 1 := by
  decide

/-! ### Median-selector lemmas -/

namespace QS

variable {T K : Type}

theorem length_swapL (arr : List T) (i j : Nat) : (swapL arr i j).length = arr.length := by
  unfold swapL
  split <;> simp [List.length_set]

theorem getElem?_swapL (arr : List T) {i j : Nat} (hi : i < arr.length) (hj : j < arr.length)
    (k : Nat) :
    (swapL arr i j)[k]? =
      if k = j then arr[i]? else if k = i then arr[j]? else arr[k]? := by
  unfold swapL
  rw [List.getElem?_eq_getElem hi, List.getElem?_eq_getElem hj]
  simp only
  rw [List.getElem?_set, List.getElem?_set]
  have hj2 : j < (arr.set i arr[j]).length := by simpa [List.length_set] using hj
  by_cases h1 : k = j
  · subst h1
    rw [if_pos rfl, if_pos hj2, if_pos rfl]
  · rw [if_neg (fun h => h1 h.symm), if_neg h1]
    by_cases h2 : k = i
    · subst h2
      rw [if_pos rfl, if_pos hi, if_pos rfl]
    · rw [if_neg (fun h => h2 h.symm), if_neg h2]

theorem swapL_perm (arr : List T) {i j : Nat} (hi : i < arr.length) (hj : j < arr.length) :
    (swapL arr i j).Perm arr := by
  classical
  rw [List.perm_iff_count]
  intro x
  unfold swapL
  rw [List.getElem?_eq_getElem hi, List.getElem?_eq_getElem hj]
  simp only
  have hj2 : j < (arr.set i arr[j]).length := by simp [List.length_set, hj]
  rw [List.count_set _ _ _ _ hj2, List.count_set _ _ _ _ hi]
  have hvi : (if (arr[i] == x) = true then 1 else 0) ≤ arr.count x := by
    split_ifs with h
    · exact List.count_pos_iff.mpr (by rw [← (beq_iff_eq).mp h]; exact List.getElem_mem hi)
    · omega
  by_cases hij : i = j
  · subst hij
    rw [List.getElem_set, if_pos rfl]
    omega
  · rw [List.getElem_set, if_neg hij]
    have hvj : (if (arr[j] == x) = true then 1 else 0) ≤ arr.count x := by
      split_ifs with h
      · exact List.count_pos_iff.mpr (by rw [← (beq_iff_eq).mp h]; exact List.getElem_mem hj)
      · omega
    omega

theorem getD_congr {l1 l2 : List T} {k1 k2 : Nat} (d : T) (h : l1[k1]? = l2[k2]?) :
    l1.getD k1 d = l2.getD k2 d := by
  rw [List.getD_eq_getElem?_getD, List.getD_eq_getElem?_getD, h]

theorem take_eq_of_getElem? {l1 l2 : List T} (n : Nat) (h : ∀ k, k < n → l1[k]? = l2[k]?) :
    l1.take n = l2.take n := by
  apply List.ext_getElem?
  intro k
  rw [List.getElem?_take, List.getElem?_take]
  split_ifs with hk
  · exact h k hk
  · rfl

theorem drop_eq_of_getElem? {l1 l2 : List T} (n : Nat) (h : ∀ k, n ≤ k → l1[k]? = l2[k]?) :
    l1.drop n = l2.drop n := by
  apply List.ext_getElem?
  intro k
  rw [List.getElem?_drop, List.getElem?_drop]
  exact h (n + k) (Nat.le_add_right n k)

theorem window_decomp (l : List T) {lo hi : Nat} (h : lo ≤ hi + 1) :
    l = l.take lo ++ (window l lo hi ++ l.drop (hi + 1)) := by
  rw [window]
  conv_lhs => rw [(List.take_append_drop lo l).symm]
  congr 1
  conv_lhs => rw [(List.take_append_drop (hi + 1 - lo) (l.drop lo)).symm]
  congr 1
  rw [List.drop_drop]
  congr 1
  omega

theorem perm_of_window_perm {l1 l2 : List T} {lo hi : Nat} (hlo : lo ≤ hi + 1)
    (hout : ∀ k, k < lo ∨ hi < k → l1[k]? = l2[k]?)
    (hw : (window l1 lo hi).Perm (window l2 lo hi)) : l1.Perm l2 := by
  rw [@window_decomp _ l1 _ hi hlo, @window_decomp _ l2 _ hi hlo,
    take_eq_of_getElem? lo (fun k hk => hout k (Or.inl hk)),
    drop_eq_of_getElem? (hi + 1) (fun k hk => hout k (Or.inr (by omega)))]
  exact (hw.append_right _).append_left _

theorem window_perm_of_perm {l1 l2 : List T} {lo hi : Nat} (hlo : lo ≤ hi + 1)
    (hout : ∀ k, k < lo ∨ hi < k → l1[k]? = l2[k]?) (hp : l1.Perm l2) :
    (window l1 lo hi).Perm (window l2 lo hi) := by
  have ht := @take_eq_of_getElem? _ l1 l2 lo (fun k hk => hout k (Or.inl hk))
  have hd := @drop_eq_of_getElem? _ l1 l2 (hi + 1)
    (fun k hk => hout k (Or.inr (by omega)))
  have hp2 := hp
  rw [@window_decomp _ l1 _ hi hlo, @window_decomp _ l2 _ hi hlo, ht, hd] at hp2
  exact (List.perm_append_right_iff _).mp ((List.perm_append_left_iff _).mp hp2)

theorem mem_window {l : List T} {lo hi : Nat} {x : T} (h : x ∈ window l lo hi) :
    ∃ k, lo ≤ k ∧ k ≤ hi ∧ l[k]? = some x := by
  rw [window] at h
  obtain ⟨n, hn⟩ := List.mem_iff_getElem?.mp h
  rw [List.getElem?_take] at hn
  split_ifs at hn with h1
  rw [List.getElem?_drop] at hn
  exact ⟨lo + n, Nat.le_add_right _ _, by omega, hn⟩

theorem getD_mem_window (l : List T) (dflt : T) {lo hi k : Nat} (h1 : lo ≤ k) (h2 : k ≤ hi)
    (h3 : k < l.length) : l.getD k dflt ∈ window l lo hi := by
  rw [window, List.mem_iff_getElem?]
  refine ⟨k - lo, ?_⟩
  rw [List.getElem?_take, if_pos (by omega), List.getElem?_drop,
    show lo + (k - lo) = k from by omega, List.getElem?_eq_getElem h3,
    List.getD_eq_getElem?_getD, List.getElem?_eq_getElem h3]
  rfl

theorem window_single (l : List T) (dflt : T) {k : Nat} (h : k < l.length) :
    window l k k = [l.getD k dflt] := by
  rw [window, show k + 1 - k = 1 from by omega]
  apply List.ext_getElem?
  intro n
  rw [List.getElem?_take]
  match n with
  | 0 =>
      rw [if_pos Nat.one_pos, List.getElem?_drop, Nat.add_zero,
        List.getElem?_eq_getElem h, List.getD_eq_getElem?_getD,
        List.getElem?_eq_getElem h]
      rfl
  | n + 1 => simp

theorem window_full (l : List T) (h : l ≠ []) : window l 0 (l.length - 1) = l := by
  have hpos := List.length_pos.mpr h
  rw [window, List.drop_zero, show l.length - 1 + 1 - 0 = l.length from by omega,
    List.take_length]

theorem partLoop_spec [LinearOrder K] (c : T → K) (dflt : T) (pv : K) (low high : Nat) :
    ∀ (n j ip : Nat) (arr : List T), high - j = n →
    low ≤ ip → ip ≤ j → j ≤ high → high < arr.length →
    (∀ k, low ≤ k → k < ip → c (arr.getD k dflt) ≤ pv) →
    (∀ k, ip ≤ k → k < j → pv < c (arr.getD k dflt)) →
    PLSpec c dflt pv low high arr (partLoop c dflt pv high n ip j arr) := by
  intro n
  induction n with
  | zero =>
      intro j ip arr hn hlow hipj hjh hlen hbelow hmid
      have hj : j = high := by omega
      subst hj
      rw [partLoop]
      have hiplt : ip < arr.length := by omega
      have hout : ∀ k, k < low ∨ j < k → (swapL arr ip j)[k]? = arr[k]? := by
        intro k hk
        rw [getElem?_swapL arr hiplt hlen k, if_neg (by omega), if_neg (by omega)]
      refine ⟨length_swapL arr ip j, hlow, hipj, hout, ?_, ?_, ?_, ?_⟩
      · exact window_perm_of_perm (by omega) hout (swapL_perm arr hiplt hlen)
      · intro k hk1 hk2
        have he : (swapL arr ip j)[k]? = arr[k]? := by
          rw [getElem?_swapL arr hiplt hlen k, if_neg (by omega), if_neg (by omega)]
        rw [getD_congr dflt he]
        exact hbelow k hk1 hk2
      · intro k hk1 hk2
        by_cases hkj : k = j
        · subst hkj
          have he : (swapL arr ip k)[k]? = arr[ip]? := by
            rw [getElem?_swapL arr hiplt hlen k, if_pos rfl]
          rw [getD_congr dflt he]
          exact hmid ip le_rfl (by omega)
        · have he : (swapL arr ip j)[k]? = arr[k]? := by
            rw [getElem?_swapL arr hiplt hlen k, if_neg hkj, if_neg (by omega)]
          rw [getD_congr dflt he]
          exact hmid k (by omega) (by omega)
      · have he : (swapL arr ip j)[ip]? = arr[j]? := by
          rw [getElem?_swapL arr hiplt hlen ip]
          by_cases hij : ip = j
          · rw [if_pos hij, hij]
          · rw [if_neg hij, if_pos rfl]
        exact getD_congr dflt he
  | succ n ih =>
      intro j ip arr hn hlow hipj hjh hlen hbelow hmid
      have hjlt : j < high := by omega
      rw [partLoop]
      by_cases hcmp : c (arr.getD j dflt) > pv
      · rw [if_neg (not_not_intro hcmp)]
        exact ih (j + 1) ip arr (by omega) hlow (by omega) (by omega) hlen hbelow
          (fun k hk1 hk2 => by
            by_cases hkj : k = j
            · subst hkj; exact hcmp
            · exact hmid k hk1 (by omega))
      · rw [if_pos hcmp]
        have hiplt : ip < arr.length := by omega
        have hjlt2 : j < arr.length := by omega
        have hswap_out : ∀ k, k < low ∨ high < k → (swapL arr ip j)[k]? = arr[k]? := by
          intro k hk
          rw [getElem?_swapL arr hiplt hjlt2 k, if_neg (by omega), if_neg (by omega)]
        have hlen2 : high < (swapL arr ip j).length := by
          rw [length_swapL]; exact hlen
        have hbelow2 : ∀ k, low ≤ k → k < ip + 1 → c ((swapL arr ip j).getD k dflt) ≤ pv := by
          intro k hk1 hk2
          by_cases hki : k = ip
          · subst hki
            have he : (swapL arr k j)[k]? = arr[j]? := by
              rw [getElem?_swapL arr hiplt hjlt2 k]
              by_cases hkj : k = j
              · rw [if_pos hkj, hkj]
              · rw [if_neg hkj, if_pos rfl]
            rw [getD_congr dflt he]
            exact not_lt.mp hcmp
          · have he : (swapL arr ip j)[k]? = arr[k]? := by
              rw [getElem?_swapL arr hiplt hjlt2 k, if_neg (by omega), if_neg hki]
            rw [getD_congr dflt he]
            exact hbelow k hk1 (by omega)
        have hmid2 : ∀ k, ip + 1 ≤ k → k < j + 1 → pv < c ((swapL arr ip j).getD k dflt) := by
          intro k hk1 hk2
          by_cases hkj : k = j
          · subst hkj
            have he : (swapL arr ip k)[k]? = arr[ip]? := by
              rw [getElem?_swapL arr hiplt hjlt2 k, if_pos rfl]
            rw [getD_congr dflt he]
            exact hmid ip le_rfl (by omega)
          · have he : (swapL arr ip j)[k]? = arr[k]? := by
              rw [getElem?_swapL arr hiplt hjlt2 k, if_neg hkj, if_neg (by omega)]
            rw [getD_congr dflt he]
            exact hmid k (by omega) (by omega)
        obtain ⟨ql, q1, q2, qout, qwin, qb, qa, qp⟩ :=
          ih (j + 1) (ip + 1) (swapL arr ip j) (by omega) (by omega) (by omega) (by omega)
            hlen2 hbelow2 hmid2
        refine ⟨ql.trans (length_swapL arr ip j), q1, q2, ?_, ?_, qb, qa, ?_⟩
        · intro k hk
          rw [qout k hk, hswap_out k hk]
        · exact qwin.trans
            (window_perm_of_perm (by omega) hswap_out (swapL_perm arr hiplt hjlt2))
        · rw [qp]
          have he : (swapL arr ip j)[high]? = arr[high]? := by
            rw [getElem?_swapL arr hiplt hjlt2 high, if_neg (by omega), if_neg (by omega)]
          exact getD_congr dflt he

theorem partition_spec [LinearOrder K] (c : T → K) (dflt : T) (arr : List T)
    {low high : Nat} (h1 : low ≤ high) (h2 : high < arr.length) :
    PLSpec c dflt (c (arr.getD high dflt)) low high arr (partition c dflt arr low high) :=
  partLoop_spec c dflt _ low high (high - low) low low arr rfl le_rfl le_rfl h1 h2
    (fun _ hk1 hk2 => absurd (lt_of_le_of_lt hk1 hk2) (lt_irrefl low))
    (fun _ hk1 hk2 => absurd (lt_of_le_of_lt hk1 hk2) (lt_irrefl low))

theorem getD_eq_of_getElem? {l : List T} {k : Nat} {x : T} (d : T) (h : l[k]? = some x) :
    l.getD k d = x := by
  rw [List.getD_eq_getElem?_getD, h]
  rfl

theorem quickSelectGo_spec [LinearOrder K] (c : T → K) (dflt : T) (n0 : Nat) :
    ∀ (fuel low high : Nat) (arr : List T),
    high + 1 - low ≤ fuel → low ≤ n0 → n0 ≤ high → high < arr.length →
    ∃ A, quickSelectGo c dflt n0 fuel low high arr = (A, some (A.getD n0 dflt)) ∧
      A.length = arr.length ∧
      (∀ k, k < low ∨ high < k → A[k]? = arr[k]?) ∧
      (window A low high).Perm (window arr low high) ∧
      (∀ k, low ≤ k → k < n0 → c (A.getD k dflt) ≤ c (A.getD n0 dflt)) ∧
      (∀ k, n0 < k → k ≤ high → c (A.getD n0 dflt) ≤ c (A.getD k dflt)) := by
  intro fuel
  induction fuel with
  | zero =>
      intro low high arr hfuel h1 h2 h3
      omega
  | succ fuel ih =>
      intro low high arr hfuel h1 h2 h3
      rw [quickSelectGo]
      by_cases hbase : low = high ∧ low = n0
      · rw [if_pos hbase]
        exact ⟨arr, rfl, rfl, fun k _ => rfl, List.Perm.refl _,
          fun k hk1 hk2 => by omega, fun k hk1 hk2 => by omega⟩
      · rw [if_neg hbase, if_neg (show ¬ low > high from by omega)]
        obtain ⟨B, p, hBp⟩ : ∃ B p, partition c dflt arr low high = (B, p) := ⟨_, _, rfl⟩
        have hps := @partition_spec _ _ _ c dflt arr low high (by omega) h3
        rw [hBp] at hps
        dsimp only [PLSpec] at hps
        obtain ⟨plen, pl, ph, pout, pwin, pbelow, pabove, ppiv⟩ := hps
        have hpv := congrArg c ppiv
        dsimp only
        rw [hBp]
        dsimp only
        by_cases hpn : p = n0
        · subst hpn
          rw [if_pos rfl]
          refine ⟨B, rfl, plen, pout, pwin, ?_, ?_⟩
          · intro k hk1 hk2
            rw [hpv]
            exact pbelow k hk1 hk2
          · intro k hk1 hk2
            rw [hpv]
            exact le_of_lt (pabove k hk1 hk2)
        · rw [if_neg hpn]
          by_cases hpgt : p > n0
          · rw [if_pos hpgt]
            obtain ⟨A, qeq, qlen, qout, qwin, qb, qa⟩ :=
              ih low (p - 1) B (by omega) h1 (by omega) (by omega)
            have hABperm : A.Perm B :=
              @perm_of_window_perm _ _ _ low (p - 1) (by omega) qout qwin
            have hout2 : ∀ k, k < low ∨ high < k → A[k]? = arr[k]? := by
              intro k hk
              rw [qout k (by omega), pout k hk]
            have hAn0 : c (A.getD n0 dflt) ≤ c (arr.getD high dflt) := by
              have hmem : A.getD n0 dflt ∈ window A low (p - 1) :=
                getD_mem_window A dflt h1 (by omega) (by omega)
              have hmem2 : A.getD n0 dflt ∈ window B low (p - 1) := qwin.subset hmem
              obtain ⟨k2, hk2a, hk2b, hk2c⟩ := mem_window hmem2
              rw [← getD_eq_of_getElem? dflt hk2c, hpv.symm]
              rw [hpv]
              exact pbelow k2 hk2a (by omega)
            refine ⟨A, qeq, qlen.trans plen, hout2, ?_, qb, ?_⟩
            · exact (window_perm_of_perm (by omega)
                (fun k hk => qout k (by omega)) hABperm).trans pwin
            · intro k hk1 hk2
              by_cases hkp : k ≤ p - 1
              · exact qa k hk1 hkp
              · have hAk : A.getD k dflt = B.getD k dflt :=
                  getD_congr dflt (qout k (by omega))
                rw [hAk]
                by_cases hkp2 : k = p
                · subst hkp2
                  rw [hpv.symm] at hAn0
                  exact hAn0
                · exact le_trans (hpv ▸ hAn0) (le_of_lt (pabove k (by omega) hk2))
          · have hplt : p < n0 := by omega
            rw [if_neg hpgt]
            obtain ⟨A, qeq, qlen, qout, qwin, qb, qa⟩ :=
              ih (p + 1) high B (by omega) (by omega) h2 (by omega)
            have hABperm : A.Perm B :=
              @perm_of_window_perm _ _ _ (p + 1) high (by omega) qout qwin
            have hout2 : ∀ k, k < low ∨ high < k → A[k]? = arr[k]? := by
              intro k hk
              rw [qout k (by omega), pout k hk]
            have hAn0 : c (arr.getD high dflt) < c (A.getD n0 dflt) := by
              have hmem : A.getD n0 dflt ∈ window A (p + 1) high :=
                getD_mem_window A dflt (by omega) h2 (by omega)
              have hmem2 : A.getD n0 dflt ∈ window B (p + 1) high := qwin.subset hmem
              obtain ⟨k2, hk2a, hk2b, hk2c⟩ := mem_window hmem2
              rw [← getD_eq_of_getElem? dflt hk2c, ← hpv]
              rw [hpv]
              exact pabove k2 (by omega) hk2b
            refine ⟨A, qeq, qlen.trans plen, hout2, ?_, ?_, qa⟩
            · exact (window_perm_of_perm (by omega)
                (fun k hk => qout k (by omega)) hABperm).trans pwin
            · intro k hk1 hk2
              by_cases hkp : p + 1 ≤ k
              · exact qb k hkp hk2
              · have hAk : A.getD k dflt = B.getD k dflt :=
                  getD_congr dflt (qout k (by omega))
                rw [hAk]
                by_cases hkp2 : k = p
                · subst hkp2
                  rw [← hpv] at hAn0
                  exact le_of_lt hAn0
                · exact le_of_lt (lt_of_le_of_lt (hpv ▸ pbelow k hk1 (by omega)) hAn0)

theorem medianWLR_parts [LinearOrder K] (c : T → K) (dflt : T)
    (arr : List T) (h : arr ≠ []) :
    ∃ L m R, medianWithLeftRight c dflt arr = (L, some m, R) ∧
      (L ++ m :: R).Perm arr ∧ (∀ x ∈ L, c x ≤ c m) ∧ (∀ x ∈ R, c m ≤ c x) := by
  have hlen : 0 < arr.length := List.length_pos.mpr h
  obtain ⟨A, qeq, qlen, qout, qwin, qb, qa⟩ :=
    quickSelectGo_spec c dflt (arr.length / 2) arr.length 0 (arr.length - 1) arr
      (by omega) (Nat.zero_le _) (by omega) (by omega)
  rw [medianWithLeftRight, if_neg (by omega)]
  dsimp only
  rw [median, quickSelect, show arr.length / 2 + 1 - 1 = arr.length / 2 from by omega, qeq]
  refine ⟨A.take (arr.length / 2), A.getD (arr.length / 2) dflt,
    A.drop (arr.length / 2 + 1), rfl, ?_, ?_, ?_⟩
  · have hdecomp := @window_decomp _ A (arr.length / 2) (arr.length / 2)
      (Nat.le_succ _)
    rw [@window_single _ A dflt (arr.length / 2) (by omega)] at hdecomp
    have hA_ne : A ≠ [] := by
      intro hh
      rw [hh] at qlen
      simp at qlen
      omega
    have h1 : window A 0 (arr.length - 1) = A := by
      rw [← qlen]
      exact window_full A hA_ne
    have h2 : window arr 0 (arr.length - 1) = arr := window_full arr h
    have hAperm : A.Perm arr := by
      rw [h1, h2] at qwin
      exact qwin
    have hA : A.take (arr.length / 2) ++
        A.getD (arr.length / 2) dflt :: A.drop (arr.length / 2 + 1) = A := hdecomp.symm
    rw [hA]
    exact hAperm
  · intro x hx
    obtain ⟨k, hk⟩ := List.mem_iff_getElem?.mp hx
    rw [List.getElem?_take] at hk
    split_ifs at hk with hkn
    rw [← getD_eq_of_getElem? dflt hk]
    exact qb k (Nat.zero_le _) hkn
  · intro x hx
    obtain ⟨k, hk⟩ := List.mem_iff_getElem?.mp hx
    rw [List.getElem?_drop] at hk
    have hklen : arr.length / 2 + 1 + k < A.length := (List.getElem?_eq_some.mp hk).1
    rw [← getD_eq_of_getElem? dflt hk]
    exact qa (arr.length / 2 + 1 + k) (by omega) (by omega)

/-- C10: for every non-empty list `arr` and comparison key `c`,
`median_with_left_right(arr, c)` returns `(left, m, right)` where
`left ++ [m] ++ right` is a permutation of `arr`, every element of
`left` has key `<= c m`, and every element of `right` has key
`>= c m`. -/
theorem medianWithLeftRight_spec [LinearOrder K] (c : T → K) (dflt : T)
    (arr : List T) (h : arr ≠ []) :
    ∃ L m R, medianWithLeftRight c dflt arr = (L, some m, R) ∧
      (L ++ m :: R).Perm arr ∧ (∀ x ∈ L, c x ≤ c m) ∧ (∀ x ∈ R, c m ≤ c x) :=
  medianWLR_parts c dflt arr h

/-- Witness for C10 at a concrete input: `[3, 1, 2]` with the identity
comparator has median 2, left part `[1]` and right part `[3]`. -/
theorem medianWithLeftRight_spec_witness :
    ∃ L m R, medianWithLeftRight (fun x : Int => x) 0 [3, 1, 2] = (L, some m, R) ∧
      (L ++ m :: R).Perm [3, 1, 2] ∧ (∀ x ∈ L, x ≤ m) ∧ (∀ x ∈ R, m ≤ x) :=
  medianWithLeftRight_spec (fun x : Int => x) 0 [3, 1, 2] (by decide)

end QS

/-! ### Bulk construction on empty input (C6) -/

/-- C6: bulk construction with a zero-length input collection does not
fail fast with a descriptive "empty input" error — both `add_all`s reach
an out-of-bounds list access (`sorted_points.pop(0)` resp.
`sorted_zip[0]`) and die with an `IndexError` instead. -/
theorem addAll_empty_raises_index_error :
    kdtAddAll kdtEmpty [] = .error .indexError ∧
    btAddAll (fun b => b) (bttEmpty : BTT Bound Nat) [] [] =
      .error .indexError := by
  exact ⟨rfl, rfl⟩

/-! ### The running bound of the Point Index (C7) -/

/-- C7: `KDTree.add` returns before `_remap_min_max` when it creates the
root node, and `add_all` pops the first point before its bound-updating
loop, so after inserting the single point `(0,0)` (by either route) the
tree's running bound is still the empty sentinel and does not contain
the inserted point. -/
theorem kdt_bound_misses_first_point :
    (kdtAdd kdtEmpty ⟨0, 0⟩).weight = 1 ∧
    KD.toListKD (kdtAdd kdtEmpty ⟨0, 0⟩).root = [⟨0, 0⟩] ∧
    (kdtAdd kdtEmpty ⟨0, 0⟩).bound.containsP ⟨0, 0⟩ = false ∧
    ((kdtAddAll kdtEmpty [⟨0, 0⟩]).toOption.map
        (fun t => t.bound.containsP ⟨0, 0⟩)) = some false := by
  decide

/-! ### What `BoundsNode.add` changes (C8) -/

/-- C8 counterexample: inserting a second shape into a one-node
Bounding-Box Index changes the existing node's own `bound` field.  The
root held the unit square as its tight box; after inserting the square
`[5,6]x[5,6]` the root's `bound` has become the merged box `[0,6]x[0,6]`
(in Python `bound` and `big_bound` are one aliased object, so merging
into `big_bound` mutates `bound` too). -/
theorem btAdd_changes_visited_bound :
    rootBound (btAdd (fun b => b)
        (BT.node (Bound.ofRat 0 1 0 1) (0 : Nat) (Bound.ofRat 0 1 0 1)
          (Bound.ofRat 0 1 0 1) .min_x .nil .nil)
        (Bound.ofRat 5 6 5 6) 1) = some (Bound.ofRat 0 6 0 6) ∧
    Bound.ofRat 0 6 0 6 ≠ Bound.ofRat 0 1 0 1 := by
  decide

/-- C8 (amended): `insert(shape, value)` merges the new shape's box
into both the `bound` and the `big_bound` of every node on the descent
path — they alias one `Bound` object, so each visited node's own bound
grows together with its big bound — while every visited node's shape,
value and level, and the entire subtree not descended into, are left
unchanged, and the insertion point gains a fresh leaf carrying the new
shape's own box (as both its `bound` and `big_bound`). -/
theorem btAdd_addPath {S V : Type} (sBound : S → Bound) (t : BT S V)
    (s : S) (v : V) :
    AddPath s v (sBound s) t (btAdd sBound t s v) := by
  induction t with
  | nil => rfl
  | node sh0 v0 bd bb lvl l r ihl ihr =>
      by_cases hc :
          levelVal (sBound s) lvl ≤ levelVal (Bound.mergeWith bd (sBound s)) lvl
      · cases l with
        | nil =>
            refine ⟨_, _, ?_, Or.inl ⟨rfl, Or.inl ⟨rfl, rfl⟩⟩⟩
            simp only [btAdd]
            rw [if_pos hc]
        | node a1 a2 a3 a4 a5 a6 a7 =>
            refine ⟨_, _, ?_, Or.inl ⟨rfl, Or.inr ⟨by simp, ihl⟩⟩⟩
            simp only [btAdd]
            rw [if_pos hc]
      · cases r with
        | nil =>
            refine ⟨_, _, ?_, Or.inr ⟨rfl, Or.inl ⟨rfl, rfl⟩⟩⟩
            simp only [btAdd]
            rw [if_neg hc]
        | node a1 a2 a3 a4 a5 a6 a7 =>
            refine ⟨_, _, ?_, Or.inr ⟨rfl, Or.inr ⟨by simp, ihr⟩⟩⟩
            simp only [btAdd]
            rw [if_neg hc]

/-! ### Bounding-box index lemmas (towards C2) -/

theorem boundSub_refl (b : Bound) : boundSub b b :=
  ⟨le_refl _, le_refl _, le_refl _, le_refl _⟩

theorem boundSub_mergeWith_left {b1 b2 : Bound} (x : Bound) (h : boundSub b1 b2) :
    boundSub b1 (b2.mergeWith x) := by
  obtain ⟨h1, h2, h3, h4⟩ := h
  exact ⟨le_trans (min_le_left _ _) h1, le_trans h2 (le_max_left _ _),
    le_trans (min_le_left _ _) h3, le_trans h4 (le_max_left _ _)⟩

theorem boundSub_mergeWith_right (b x : Bound) : boundSub x (b.mergeWith x) :=
  ⟨min_le_right _ _, le_max_right _ _, min_le_right _ _, le_max_right _ _⟩

theorem containsP_mono {b1 b2 : Bound} (h : boundSub b1 b2) {q : Pt}
    (hq : b1.containsP q = true) : b2.containsP q = true := by
  obtain ⟨h1, h2, h3, h4⟩ := h
  simp only [Bound.containsP, Bool.and_eq_true, decide_eq_true_eq, ge_iff_le] at hq ⊢
  obtain ⟨⟨⟨hq1, hq2⟩, hq3⟩, hq4⟩ := hq
  exact ⟨⟨⟨le_trans h1 hq1, le_trans hq2 h2⟩, le_trans h3 hq3⟩, le_trans hq4 h4⟩

theorem btAdd_ne_nil {S V : Type} (sBound : S → Bound) {t : BT S V}
    (h : t ≠ .nil) (s : S) (v : V) : btAdd sBound t s v ≠ .nil := by
  cases t with
  | nil => exact absurd rfl h
  | node sh0 v0 bd bb lvl l r =>
      simp only [btAdd]
      split_ifs with hc
      · cases l <;> simp
      · cases r <;> simp

theorem shapesB_btAdd {S V : Type} (sBound : S → Bound) {t : BT S V}
    (h : t ≠ .nil) (s : S) (v : V) :
    (shapesB (btAdd sBound t s v)).Perm ((s, v) :: shapesB t) := by
  induction t with
  | nil => exact absurd rfl h
  | node sh0 v0 bd bb lvl l r ihl ihr =>
      simp only [btAdd]
      split_ifs with hc
      · cases l with
        | nil =>
            simp only [shapesB, List.nil_append, List.cons_append]
            exact List.Perm.swap _ _ _
        | node a1 a2 a3 a4 a5 a6 a7 =>
            have ih := ihl (by simp)
            simp only [shapesB] at ih ⊢
            refine List.Perm.trans (List.Perm.cons _ (ih.append_right _)) ?_
            simp only [List.cons_append]
            exact List.Perm.swap _ _ _
      · cases r with
        | nil =>
            simp only [shapesB, List.append_nil]
            refine List.Perm.trans (List.Perm.cons _ List.perm_middle) ?_
            rw [List.append_nil]
            exact List.Perm.swap _ _ _
        | node a1 a2 a3 a4 a5 a6 a7 =>
            have ih := ihr (by simp)
            simp only [shapesB] at ih ⊢
            refine List.Perm.trans (List.Perm.cons _ (List.Perm.append_left _ ih)) ?_
            refine List.Perm.trans (List.Perm.cons _ List.perm_middle) ?_
            exact List.Perm.swap _ _ _

theorem coverB_leaf {S V : Type} (sBound : S → Bound) (s : S) (v : V)
    (b : Bound) (hb : boundSub (sBound s) b) (lvl : L4) :
    coverB sBound (BT.node s v b b lvl .nil .nil) := by
  refine ⟨?_, trivial, trivial⟩
  intro sv hm
  simp only [shapesB, List.append_nil, List.mem_singleton] at hm
  rw [hm]
  exact hb

theorem coverB_btAdd {S V : Type} (sBound : S → Bound) {t : BT S V}
    (hc : coverB sBound t) (s : S) (v : V) : coverB sBound (btAdd sBound t s v) := by
  induction t with
  | nil => trivial
  | node sh0 v0 bd bb lvl l r ihl ihr =>
      obtain ⟨hcov, hl, hr⟩ := hc
      have hmemNode : ∀ sv, sv ∈ shapesB l ∨ sv ∈ shapesB r →
          boundSub (sBound sv.1) bb := by
        intro sv hsv
        refine hcov sv ?_
        simp only [shapesB, List.mem_cons, List.mem_append]
        exact Or.inr hsv
      have hroot : boundSub (sBound sh0) bb := by
        refine hcov (sh0, v0) ?_
        simp [shapesB]
      simp only [btAdd]
      split_ifs with hcnd
      · cases l with
        | nil =>
            refine ⟨?_, coverB_leaf sBound s v (sBound s) (boundSub_refl _) _, hr⟩
            intro sv hm
            simp only [shapesB, List.append_nil, List.nil_append, List.mem_cons,
              List.mem_append, List.not_mem_nil, or_false] at hm
            rcases hm with hm | hm | hm
            · rw [hm]; exact boundSub_mergeWith_left _ hroot
            · rw [hm]; exact boundSub_mergeWith_right _ _
            · exact boundSub_mergeWith_left _ (hmemNode sv (Or.inr hm))
        | node a1 a2 a3 a4 a5 a6 a7 =>
            refine ⟨?_, ihl hl, hr⟩
            intro sv hm
            simp only [shapesB, List.mem_cons, List.mem_append] at hm
            rcases hm with hm | hm | hm
            · rw [hm]; exact boundSub_mergeWith_left _ hroot
            · have := (@shapesB_btAdd _ _ sBound (.node a1 a2 a3 a4 a5 a6 a7)
                  (by simp) s v).mem_iff.mp hm
              rcases List.mem_cons.mp this with hm2 | hm2
              · rw [hm2]; exact boundSub_mergeWith_right _ _
              · exact boundSub_mergeWith_left _ (hmemNode sv (Or.inl hm2))
            · exact boundSub_mergeWith_left _ (hmemNode sv (Or.inr hm))
      · cases r with
        | nil =>
            refine ⟨?_, hl, coverB_leaf sBound s v (sBound s) (boundSub_refl _) _⟩
            intro sv hm
            simp only [shapesB, List.append_nil, List.nil_append, List.mem_cons,
              List.mem_append, List.not_mem_nil, or_false] at hm
            rcases hm with hm | hm | hm
            · rw [hm]; exact boundSub_mergeWith_left _ hroot
            · exact boundSub_mergeWith_left _ (hmemNode sv (Or.inl hm))
            · rw [hm]; exact boundSub_mergeWith_right _ _
        | node a1 a2 a3 a4 a5 a6 a7 =>
            refine ⟨?_, hl, ihr hr⟩
            intro sv hm
            simp only [shapesB, List.mem_cons, List.mem_append] at hm
            rcases hm with hm | hm | hm
            · rw [hm]; exact boundSub_mergeWith_left _ hroot
            · exact boundSub_mergeWith_left _ (hmemNode sv (Or.inl hm))
            · have := (@shapesB_btAdd _ _ sBound (.node a1 a2 a3 a4 a5 a6 a7)
                  (by simp) s v).mem_iff.mp hm
              rcases List.mem_cons.mp this with hm2 | hm2
              · rw [hm2]; exact boundSub_mergeWith_right _ _
              · exact boundSub_mergeWith_left _ (hmemNode sv (Or.inr hm2))

theorem findShapeAcc_no_match {S V : Type} (sContains : S → Pt → Bool) (q : Pt)
    (t : BT S V) :
    ∀ (acc : Option V), (∀ sv ∈ shapesB t, sContains sv.1 q = false) →
      findShapeAcc sContains q acc t = acc := by
  induction t with
  | nil => intro acc _; rfl
  | node sh0 v0 bd bb lvl l r ihl ihr =>
      intro acc hall
      rw [findShapeAcc]
      by_cases h1 : bb.containsP q = true
      · rw [if_neg (not_not_intro h1)]
        have hhd := hall (sh0, v0) (by simp [shapesB])
        rw [if_pos (by simp [hhd])]
        rw [ihl _ (fun sv hm => hall sv (by
          simp only [shapesB, List.mem_cons, List.mem_append]
          exact Or.inr (Or.inl hm)))]
        exact ihr _ (fun sv hm => hall sv (by
          simp only [shapesB, List.mem_cons, List.mem_append]
          exact Or.inr (Or.inr hm)))
      · rw [if_pos h1]

theorem findShapeAcc_unique_go {S V : Type} (sContains : S → Pt → Bool)
    (sBound : S → Bound) (q : Pt)
    (hbb : ∀ s, sContains s q = true → (sBound s).containsP q = true)
    (t : BT S V) :
    ∀ (acc : Option V) (sv0 : S × V), coverB sBound t → sv0 ∈ shapesB t →
      sContains sv0.1 q = true →
      (shapesB t).countP (fun sv => sContains sv.1 q) = 1 →
      findShapeAcc sContains q acc t = some sv0.2 := by
  induction t with
  | nil => intro acc sv0 _ hm _ _; simp [shapesB] at hm
  | node sh0 v0 bd bb lvl l r ihl ihr =>
      intro acc sv0 hcov hm hsv hcount
      obtain ⟨hcv, hcl, hcr⟩ := hcov
      have hbbq : bb.containsP q = true :=
        containsP_mono (hcv sv0 hm) (hbb _ hsv)
      rw [findShapeAcc]
      rw [if_neg (not_not_intro hbbq)]
      by_cases hroot : sContains sh0 q = true
      · rw [if_neg (not_not_intro hroot)]
        have hc2 : (shapesB l ++ shapesB r).countP
            (fun sv => sContains sv.1 q) = 0 := by
          have hh := hcount
          simp only [shapesB, List.countP_cons] at hh
          rw [if_pos (by simpa using hroot)] at hh
          omega
        have hz := List.countP_eq_zero.mp hc2
        have hsv0 : sv0 = (sh0, v0) := by
          have hm2 : sv0 = (sh0, v0) ∨ sv0 ∈ shapesB l ++ shapesB r := by
            simpa only [shapesB, List.mem_cons] using hm
          rcases hm2 with h | h
          · exact h
          · exact absurd hsv (by simpa using hz sv0 h)
        rw [hsv0]
      · rw [if_pos hroot]
        have hc2 : (shapesB l).countP (fun sv => sContains sv.1 q) +
            (shapesB r).countP (fun sv => sContains sv.1 q) = 1 := by
          have hh := hcount
          simp only [shapesB, List.countP_cons, List.countP_append] at hh
          rw [if_neg (by simpa using hroot)] at hh
          omega
        have hm2 : sv0 ∈ shapesB l ++ shapesB r := by
          have hm3 : sv0 = (sh0, v0) ∨ sv0 ∈ shapesB l ++ shapesB r := by
            simpa only [shapesB, List.mem_cons] using hm
          rcases hm3 with h | h
          · rw [h] at hsv; exact absurd hsv hroot
          · exact h
        rcases List.mem_append.mp hm2 with hml | hmr
        · have hposl : 0 < (shapesB l).countP (fun sv => sContains sv.1 q) :=
            List.countP_pos_iff.mpr ⟨sv0, hml, by simpa using hsv⟩
          have hr0 : (shapesB r).countP (fun sv => sContains sv.1 q) = 0 := by
            omega
          rw [ihl acc sv0 hcl hml hsv (by omega)]
          exact findShapeAcc_no_match sContains q r _ (fun sv hm' => by
            simpa using List.countP_eq_zero.mp hr0 sv hm')
        · have hposr : 0 < (shapesB r).countP (fun sv => sContains sv.1 q) :=
            List.countP_pos_iff.mpr ⟨sv0, hmr, by simpa using hsv⟩
          have hl0 : (shapesB l).countP (fun sv => sContains sv.1 q) = 0 := by
            omega
          rw [findShapeAcc_no_match sContains q l acc (fun sv hm' => by
            simpa using List.countP_eq_zero.mp hl0 sv hm')]
          exact ihr _ sv0 hcr hmr hsv (by omega)

theorem btAppendMedian_perm {S V : Type} [Inhabited S] [Inhabited V]
    (sBound : S → Bound) (fuel : Nat) :
    ∀ (ps : List (S × V)) (lvl : L4), ps.length ≤ fuel →
      (btAppendMedian sBound fuel ps lvl).Perm ps := by
  induction fuel with
  | zero =>
      intro ps lvl h
      have hps : ps = [] := List.length_eq_zero.mp (Nat.le_zero.mp h)
      rw [hps]
      exact List.Perm.nil
  | succ n ih =>
      intro ps lvl h
      by_cases hz : ps.length = 0
      · have hps : ps = [] := List.length_eq_zero.mp hz
        rw [hps, btAppendMedian, if_pos (by simp)]
      · have hne : ps ≠ [] := fun he => hz (by rw [he]; rfl)
        obtain ⟨L, m, R, heq, hperm, _, _⟩ :=
          QS.medianWLR_parts (fun sv => levelVal (sBound sv.1) lvl) default ps hne
        have hlen : L.length + (R.length + 1) = ps.length := by
          have := hperm.length_eq
          simpa using this
        have hL := ih L lvl.nextAM (by omega)
        have hR := ih R lvl.nextAM (by omega)
        rw [btAppendMedian, if_neg hz, heq]
        simp only [List.singleton_append, List.cons_append, List.nil_append]
        refine List.Perm.trans (List.Perm.cons m (List.Perm.append hL hR)) ?_
        refine List.Perm.trans ?_ hperm
        exact List.perm_middle.symm

theorem btAddAll_foldl_root {S V : Type} (sBound : S → Bound)
    (ps : List (S × V)) :
    ∀ (t0 : BTT S V),
      (ps.foldl (fun acc sv =>
        { root := btAdd sBound acc.root sv.1 sv.2, weight := acc.weight + 1,
          big_bound := acc.big_bound.mergeWith (sBound sv.1) }) t0).root =
      ps.foldl (fun rt sv => btAdd sBound rt sv.1 sv.2) t0.root := by
  induction ps with
  | nil => intro t0; rfl
  | cons sv rest ih => intro t0; exact ih _

theorem btAdd_foldl_props {S V : Type} (sBound : S → Bound)
    (ps : List (S × V)) :
    ∀ (rt : BT S V), rt ≠ .nil → coverB sBound rt →
      (ps.foldl (fun acc sv => btAdd sBound acc sv.1 sv.2) rt) ≠ .nil ∧
      coverB sBound (ps.foldl (fun acc sv => btAdd sBound acc sv.1 sv.2) rt) ∧
      (shapesB (ps.foldl (fun acc sv => btAdd sBound acc sv.1 sv.2) rt)).Perm
        (shapesB rt ++ ps) := by
  induction ps with
  | nil =>
      intro rt hne hcov
      refine ⟨hne, hcov, ?_⟩
      rw [List.append_nil]
      exact List.Perm.refl _
  | cons sv rest ih =>
      intro rt hne hcov
      have h1 := btAdd_ne_nil sBound hne sv.1 sv.2
      have h2 := coverB_btAdd sBound hcov sv.1 sv.2
      have h3 := shapesB_btAdd sBound hne sv.1 sv.2
      rw [Prod.mk.eta] at h3
      obtain ⟨g1, g2, g3⟩ := ih (btAdd sBound rt sv.1 sv.2) h1 h2
      refine ⟨g1, g2, ?_⟩
      refine List.Perm.trans g3 ?_
      refine List.Perm.trans (h3.append_right rest) ?_
      exact List.perm_middle.symm

/-- C2: for every Bounding-Box Index built by `add_all` from shapes
`P1..Pn` with associated values, if every shape's reported bound
contains all the points the shape contains (`hbb`) and at most one
shape contains the query point `q` (pairwise-disjoint shapes),
`find_shape(q)` returns the value of the unique `Pi` with
`Pi.contains(q)`, and `None` when no shape contains `q`. -/
theorem findShape_correct {S V : Type} [Inhabited S] [Inhabited V]
    (sContains : S → Pt → Bool) (sBound : S → Bound)
    (hbb : ∀ s p, sContains s p = true → (sBound s).containsP p = true)
    (shapes : List S) (values : List V) (t : BTT S V)
    (hbuild : btAddAll sBound bttEmpty shapes values = .ok t) (q : Pt)
    (hdisj : ((shapes.zip values).countP fun sv => sContains sv.1 q) ≤ 1) :
    findShape sContains q t.root =
      ((shapes.zip values).find? (fun sv => sContains sv.1 q)).map
        (fun sv => sv.2) := by
  have hpermAM := btAppendMedian_perm sBound (shapes.zip values).length
    (shapes.zip values) L4.min_x (le_refl _)
  simp only [btAddAll, bttEmpty] at hbuild
  cases hs : btAppendMedian sBound (shapes.zip values).length
      (shapes.zip values) L4.min_x with
  | nil =>
      rw [hs] at hbuild
      simp at hbuild
  | cons hd rest =>
      obtain ⟨s, v⟩ := hd
      rw [hs] at hbuild
      injection hbuild with ht
      subst ht
      rw [hs] at hpermAM
      have hprops := btAdd_foldl_props sBound rest
        (.node s v (sBound s) (sBound s) .min_x .nil .nil) (by simp)
        (coverB_leaf sBound s v (sBound s) (boundSub_refl _) _)
      obtain ⟨hne2, hcov2, hsh2⟩ := hprops
      have hsh3 : (shapesB (rest.foldl
          (fun acc sv => btAdd sBound acc sv.1 sv.2)
          (.node s v (sBound s) (sBound s) .min_x .nil .nil))).Perm
          (shapes.zip values) :=
        hsh2.trans hpermAM
      rw [findShape, btAddAll_foldl_root sBound rest]
      rcases Nat.le_one_iff_eq_zero_or_eq_one.mp hdisj with h0 | h1
      · have hfind : ((shapes.zip values).find? fun sv => sContains sv.1 q) =
            none :=
          List.find?_eq_none.mpr (fun x hx => by
            simpa using List.countP_eq_zero.mp h0 x hx)
        rw [hfind]
        exact findShapeAcc_no_match sContains q _ none (fun sv hm => by
          simpa using List.countP_eq_zero.mp h0 sv (hsh3.mem_iff.mp hm))
      · have hsome : ((shapes.zip values).find? fun sv =>
            sContains sv.1 q).isSome := by
          rw [List.find?_isSome]
          exact List.countP_pos_iff.mp (by omega)
        obtain ⟨sv1, hfind⟩ := Option.isSome_iff_exists.mp hsome
        have hmem1 : sv1 ∈ shapes.zip values := List.mem_of_find?_eq_some hfind
        have hp1 : sContains sv1.1 q = true := by
          simpa using List.find?_some hfind
        rw [hfind]
        exact findShapeAcc_unique_go sContains sBound q
          (fun s2 hs2 => hbb s2 q hs2) _ none sv1 hcov2
          (hsh3.mem_iff.mpr hmem1) hp1
          (by rw [hsh3.countP_eq]; exact h1)

/-! ### Point-index nearest neighbour (towards C1) -/

theorem toListKD_add (p : Pt) (t : KD) :
    (KD.toListKD (t.add p)).Perm (p :: KD.toListKD t) := by
  induction t with
  | nil => exact List.Perm.refl [p]
  | node pt lvl l r ihl ihr =>
      rw [KD.add.eq_def]
      dsimp only
      by_cases hc : coord p lvl ≤ coord pt lvl
      · rw [if_pos hc]
        cases l with
        | nil =>
            simp only [KD.toListKD, List.nil_append, List.cons_append]
            exact List.Perm.swap _ _ _
        | node a1 a2 a3 a4 =>
            simp only [KD.toListKD] at ihl ⊢
            refine List.Perm.trans (List.Perm.cons _ (ihl.append_right _)) ?_
            simp only [List.cons_append]
            exact List.Perm.swap _ _ _
      · rw [if_neg hc]
        cases r with
        | nil =>
            simp only [KD.toListKD, List.append_nil]
            refine List.Perm.trans (List.Perm.cons _ List.perm_middle) ?_
            rw [List.append_nil]
            exact List.Perm.swap _ _ _
        | node a1 a2 a3 a4 =>
            simp only [KD.toListKD] at ihr ⊢
            refine List.Perm.trans
              (List.Perm.cons _ (List.Perm.append_left _ ihr)) ?_
            refine List.Perm.trans (List.Perm.cons _ List.perm_middle) ?_
            exact List.Perm.swap _ _ _

theorem wfKD_add (p : Pt) : ∀ (t : KD), KD.WfKD t → KD.WfKD (t.add p) := by
  intro t
  induction t with
  | nil =>
      intro _
      refine ⟨?_, ?_, trivial, trivial⟩ <;> intro x hx <;>
        simp [KD.toListKD] at hx
  | node pt lvl l r ihl ihr =>
      intro h
      obtain ⟨hbl, hbr, hwl, hwr⟩ := h
      rw [KD.add.eq_def]
      dsimp only
      by_cases hc : coord p lvl ≤ coord pt lvl
      · rw [if_pos hc]
        cases l with
        | nil =>
            refine ⟨?_, hbr, ⟨?_, ?_, trivial, trivial⟩, hwr⟩
            · intro x hx
              simp only [KD.toListKD, List.append_nil, List.nil_append,
                List.mem_singleton] at hx
              rw [hx]
              exact hc
            all_goals intro x hx; simp [KD.toListKD] at hx
        | node a1 a2 a3 a4 =>
            refine ⟨?_, hbr, ihl hwl, hwr⟩
            intro x hx
            have hx2 := (toListKD_add p (.node a1 a2 a3 a4)).mem_iff.mp hx
            rcases List.mem_cons.mp hx2 with h | h
            · rw [h]; exact hc
            · exact hbl x h
      · rw [if_neg hc]
        cases r with
        | nil =>
            refine ⟨hbl, ?_, hwl, ⟨?_, ?_, trivial, trivial⟩⟩
            · intro x hx
              simp only [KD.toListKD, List.append_nil, List.nil_append,
                List.mem_singleton] at hx
              rw [hx]
              exact lt_of_not_le hc
            all_goals intro x hx; simp [KD.toListKD] at hx
        | node a1 a2 a3 a4 =>
            refine ⟨hbl, ?_, hwl, ihr hwr⟩
            intro x hx
            have hx2 := (toListKD_add p (.node a1 a2 a3 a4)).mem_iff.mp hx
            rcases List.mem_cons.mp hx2 with h | h
            · rw [h]; exact lt_of_not_le hc
            · exact hbr x h

theorem kdAdd_ne_nil (t : KD) (p : Pt) : t.add p ≠ .nil := by
  cases t with
  | nil => simp [KD.add]
  | node pt lvl l r =>
      rw [KD.add.eq_def]
      dsimp only
      split_ifs <;> [cases l; cases r] <;> simp

theorem kdAdd_foldl_ne_nil (ps : List Pt) :
    ∀ (rt : KD), rt ≠ .nil → ps.foldl KD.add rt ≠ .nil := by
  induction ps with
  | nil => intro rt h; exact h
  | cons p rest ih => intro rt _; exact ih _ (kdAdd_ne_nil rt p)

theorem kdAdd_foldl_props (ps : List Pt) :
    ∀ (rt : KD), KD.WfKD rt →
      KD.WfKD (ps.foldl KD.add rt) ∧
      (KD.toListKD (ps.foldl KD.add rt)).Perm (KD.toListKD rt ++ ps) := by
  induction ps with
  | nil =>
      intro rt h
      refine ⟨h, ?_⟩
      rw [List.append_nil]
      exact List.Perm.refl _
  | cons p rest ih =>
      intro rt h
      obtain ⟨g1, g2⟩ := ih (rt.add p) (wfKD_add p rt h)
      refine ⟨g1, ?_⟩
      refine List.Perm.trans g2 ?_
      refine List.Perm.trans ((toListKD_add p rt).append_right rest) ?_
      exact List.perm_middle.symm

theorem kdtBuild_root (ps : List Pt) :
    ∀ (t0 : KDT), (ps.foldl kdtAdd t0).root = ps.foldl KD.add t0.root := by
  induction ps with
  | nil => intro t0; rfl
  | cons p rest ih =>
      intro t0
      have hr : (kdtAdd t0 p).root = KD.add t0.root p := by
        cases ht : t0.root <;> simp [kdtAdd, ht, KD.add]
      calc ((p :: rest).foldl kdtAdd t0).root
          = (rest.foldl kdtAdd (kdtAdd t0 p)).root := rfl
        _ = rest.foldl KD.add ((kdtAdd t0 p).root) := ih _
        _ = rest.foldl KD.add (KD.add t0.root p) := by rw [hr]

theorem gcp_inf_fin (dist : Pt → Pt → Rat) (q pt : Pt) :
    getClosestPoint dist q [.inf, .fin pt] =
      (some (.fin pt), (dist q pt : WithTop Rat)) := by
  simp [getClosestPoint, gcpStep, distP]

theorem gcp_pair_spec (dist : Pt → Pt → Rat) (q a b : Pt) :
    ∃ m, getClosestPoint dist q [.fin a, .fin b] =
        (some (.fin m), (dist q m : WithTop Rat)) ∧
      (m = a ∨ m = b) ∧ dist q m ≤ dist q a ∧ dist q m ≤ dist q b := by
  by_cases h : dist q b < dist q a
  · refine ⟨b, ?_, Or.inr rfl, le_of_lt h, le_refl _⟩
    simp [getClosestPoint, gcpStep, distP, h]
  · refine ⟨a, ?_, Or.inl rfl, le_refl _, not_lt.mp h⟩
    simp [getClosestPoint, gcpStep, distP, h]

theorem nearestGo_correct (dist : Pt → Pt → Rat)
    (hdom : ∀ a b ax, |coord a ax - coord b ax| ≤ dist a b)
    (q pt : Pt) (lvl : Axis) (nb ob : KD)
    (nbRes obRes : Option PPt × WithTop Rat)
    (Hnb : nb ≠ .nil → ∃ p1, nbRes = (some (.fin p1), (dist q p1 : WithTop Rat)) ∧
      p1 ∈ KD.toListKD nb ∧ ∀ r ∈ KD.toListKD nb, dist q p1 ≤ dist q r)
    (Hob : ob ≠ .nil → ∃ p2, obRes = (some (.fin p2), (dist q p2 : WithTop Rat)) ∧
      p2 ∈ KD.toListKD ob ∧ ∀ r ∈ KD.toListKD ob, dist q p2 ≤ dist q r)
    (hobFar : ∀ r ∈ KD.toListKD ob,
      |coord q lvl - coord pt lvl| ≤ |coord q lvl - coord r lvl|) :
    ∃ p, nearestGo dist q pt lvl nb ob nbRes obRes =
        (some (.fin p), (dist q p : WithTop Rat)) ∧
      (p = pt ∨ p ∈ KD.toListKD nb ∨ p ∈ KD.toListKD ob) ∧
      dist q p ≤ dist q pt ∧
      (∀ r ∈ KD.toListKD nb, dist q p ≤ dist q r) ∧
      (∀ r ∈ KD.toListKD ob, dist q p ≤ dist q r) := by
  cases nb with
  | nil =>
      simp only [nearestGo]
      rw [gcp_inf_fin dist q pt]
      by_cases hob : ob = KD.nil
      · rw [if_neg (fun hc => hc.2 hob)]
        subst hob
        exact ⟨pt, rfl, Or.inl rfl, le_refl _,
          fun r hr => by simp [KD.toListKD] at hr,
          fun r hr => by simp [KD.toListKD] at hr⟩
      · obtain ⟨p2, hob2, hmem2, hmin2⟩ := Hob hob
        subst hob2
        rw [if_pos ⟨WithTop.coe_le_coe.mpr (hdom q pt lvl), hob⟩]
        dsimp only
        obtain ⟨m, hm, hmor, hma, hmb⟩ := gcp_pair_spec dist q p2 pt
        rw [hm]
        refine ⟨m, rfl, ?_, hmb, fun r hr => by simp [KD.toListKD] at hr, ?_⟩
        · rcases hmor with h | h
          · exact Or.inr (Or.inr (h ▸ hmem2))
          · exact Or.inl h
        · intro r hr
          exact le_trans hma (hmin2 r hr)
  | node npt nlvl nl nr =>
      obtain ⟨p1, hnb1, hmem1, hmin1⟩ := Hnb (by simp)
      subst hnb1
      simp only [nearestGo]
      obtain ⟨pb, hbb, hbor, hba, hbpt⟩ := gcp_pair_spec dist q p1 pt
      rw [hbb]
      have hminNb : ∀ r ∈ KD.toListKD (KD.node npt nlvl nl nr),
          dist q pb ≤ dist q r := fun r hr => le_trans hba (hmin1 r hr)
      by_cases hob : ob = KD.nil
      · rw [if_neg (fun hc => hc.2 hob)]
        subst hob
        refine ⟨pb, rfl, ?_, hbpt, hminNb, fun r hr => by simp [KD.toListKD] at hr⟩
        rcases hbor with h | h
        · exact Or.inr (Or.inl (h ▸ hmem1))
        · exact Or.inl h
      · by_cases hsd : (dist q pb : WithTop Rat) ≥
            ((|coord q lvl - coord pt lvl| : Rat) : WithTop Rat)
        · rw [if_pos ⟨hsd, hob⟩]
          obtain ⟨p2, hob2, hmem2, hmin2⟩ := Hob hob
          subst hob2
          dsimp only
          obtain ⟨m, hm, hmor, hma, hmb⟩ := gcp_pair_spec dist q p2 pb
          rw [hm]
          refine ⟨m, rfl, ?_, le_trans hmb hbpt, ?_, ?_⟩
          · rcases hmor with h | h
            · exact Or.inr (Or.inr (h ▸ hmem2))
            · rcases hbor with h2 | h2
              · exact Or.inr (Or.inl ((h.trans h2) ▸ hmem1))
              · exact Or.inl (h.trans h2)
          · intro r hr
            exact le_trans hmb (hminNb r hr)
          · intro r hr
            exact le_trans hma (hmin2 r hr)
        · rw [if_neg (fun hc => hsd hc.1)]
          have hlt : dist q pb < |coord q lvl - coord pt lvl| := by
            have := lt_of_not_le (fun hh => hsd (WithTop.coe_le_coe.mpr hh))
            exact this
          refine ⟨pb, rfl, ?_, hbpt, hminNb, ?_⟩
          · rcases hbor with h | h
            · exact Or.inr (Or.inl (h ▸ hmem1))
            · exact Or.inl h
          · intro r hr
            have h1 := hobFar r hr
            have h2 := hdom q r lvl
            exact le_of_lt (lt_of_lt_of_le hlt (le_trans h1 h2))

theorem nearestKD_correct (dist : Pt → Pt → Rat)
    (hdom : ∀ a b ax, |coord a ax - coord b ax| ≤ dist a b) :
    ∀ (t : KD), KD.WfKD t → t ≠ .nil → ∀ q,
      ∃ p, nearestKD dist t q = (some (.fin p), (dist q p : WithTop Rat)) ∧
        p ∈ KD.toListKD t ∧ ∀ r ∈ KD.toListKD t, dist q p ≤ dist q r := by
  intro t
  induction t with
  | nil => intro _ hne _; exact absurd rfl hne
  | node pt lvl l r ihl ihr =>
      intro hwf _ q
      obtain ⟨hbl, hbr, hwl, hwr⟩ := hwf
      rw [nearestKD]
      by_cases hq : coord q lvl < coord pt lvl
      · rw [if_pos hq]
        have hfar : ∀ r' ∈ KD.toListKD r,
            |coord q lvl - coord pt lvl| ≤ |coord q lvl - coord r' lvl| := by
          intro r' hr'
          have h2 := hbr r' hr'
          rw [abs_of_nonpos (by linarith), abs_of_nonpos (by linarith)]
          linarith
        obtain ⟨p, heq, hmem, hlept, hminNb, hminOb⟩ :=
          nearestGo_correct dist hdom q pt lvl l r _ _
            (fun hne => ihl hwl hne q) (fun hne => ihr hwr hne q) hfar
        refine ⟨p, heq, ?_, ?_⟩
        · simp only [KD.toListKD, List.mem_cons, List.mem_append]
          rcases hmem with h | h | h
          · exact Or.inl h
          · exact Or.inr (Or.inl h)
          · exact Or.inr (Or.inr h)
        · intro r' hr'
          simp only [KD.toListKD, List.mem_cons, List.mem_append] at hr'
          rcases hr' with h | h | h
          · rw [h]; exact hlept
          · exact hminNb r' h
          · exact hminOb r' h
      · rw [if_neg hq]
        have hfar : ∀ r' ∈ KD.toListKD l,
            |coord q lvl - coord pt lvl| ≤ |coord q lvl - coord r' lvl| := by
          intro r' hr'
          have h2 := hbl r' hr'
          have h3 := not_lt.mp hq
          rw [abs_of_nonneg (by linarith), abs_of_nonneg (by linarith)]
          linarith
        obtain ⟨p, heq, hmem, hlept, hminNb, hminOb⟩ :=
          nearestGo_correct dist hdom q pt lvl r l _ _
            (fun hne => ihr hwr hne q) (fun hne => ihl hwl hne q) hfar
        refine ⟨p, heq, ?_, ?_⟩
        · simp only [KD.toListKD, List.mem_cons, List.mem_append]
          rcases hmem with h | h | h
          · exact Or.inl h
          · exact Or.inr (Or.inr h)
          · exact Or.inr (Or.inl h)
        · intro r' hr'
          simp only [KD.toListKD, List.mem_cons, List.mem_append] at hr'
          rcases hr' with h | h | h
          · rw [h]; exact hlept
          · exact hminOb r' h
          · exact hminNb r' h

/-- C1 (amended): `nearest(q)` on a tree built by successive `add`
calls returns a stored point of minimum capability distance to `q`
together with that distance, PROVIDED the capability distance dominates
every single-axis coordinate difference
(`|coord a ax - coord b ax| <= dist a b`), which is what the
`best_d >= s_d` prune test of `_backtrack` compares; without that
dominance the prune can discard the true nearest point
(`Geo.kdtNearest_misses_true_nearest`). -/
theorem kdtNearest_correct (dist : Pt → Pt → Rat)
    (hdom : ∀ a b ax, |coord a ax - coord b ax| ≤ dist a b)
    (ps : List Pt) (hne : ps ≠ []) (q : Pt) :
    ∃ p, kdtNearest dist (kdtBuild ps) q =
        (some (.fin p), (dist q p : WithTop Rat)) ∧
      p ∈ ps ∧ ∀ r ∈ ps, dist q p ≤ dist q r := by
  have hroot : (kdtBuild ps).root = ps.foldl KD.add KD.nil :=
    kdtBuild_root ps kdtEmpty
  obtain ⟨hwf, hperm⟩ := kdAdd_foldl_props ps KD.nil trivial
  have hnn : ps.foldl KD.add KD.nil ≠ KD.nil := by
    obtain ⟨p0, rest, hps⟩ := List.exists_cons_of_ne_nil hne
    rw [hps]
    exact kdAdd_foldl_ne_nil rest _ (kdAdd_ne_nil _ p0)
  obtain ⟨p, heq, hmem, hmin⟩ :=
    nearestKD_correct dist hdom (ps.foldl KD.add KD.nil) hwf hnn q
  refine ⟨p, ?_, hperm.mem_iff.mp hmem, fun r hr =>
    hmin r (hperm.mem_iff.mpr hr)⟩
  cases h2 : ps.foldl KD.add KD.nil with
  | nil => exact absurd h2 hnn
  | node a b c d =>
      rw [h2] at heq
      have h3 : (kdtBuild ps).root = KD.node a b c d := hroot.trans h2
      simp only [kdtNearest, h3]
      exact heq

/-- The taxicab demo distance dominates each coordinate difference. -/
theorem distL1_dom : ∀ a b ax, |coord a ax - coord b ax| ≤ distL1 a b := by
  intro a b ax
  cases ax
  · exact le_add_of_nonneg_right (abs_nonneg _)
  · exact le_add_of_nonneg_left (abs_nonneg _)

/-- Witness for C1: five points (single, coincident-free, partly
collinear) under the taxicab capability distance; the query `(1, 1)`
has the stored point `(1, 1)` at distance zero as its unique
minimiser. -/
theorem kdtNearest_correct_witness :
    (∀ a b ax, |coord a ax - coord b ax| ≤ distL1 a b) ∧
    ([(⟨0, 0⟩ : Pt), ⟨1, 1⟩, ⟨2, 2⟩, ⟨0, 2⟩, ⟨2, 0⟩] ≠ []) ∧
    ∃ p, kdtNearest distL1 (kdtBuild [⟨0, 0⟩, ⟨1, 1⟩, ⟨2, 2⟩, ⟨0, 2⟩, ⟨2, 0⟩])
        ⟨1, 1⟩ = (some (.fin p), (distL1 ⟨1, 1⟩ p : WithTop Rat)) ∧
      p ∈ [(⟨0, 0⟩ : Pt), ⟨1, 1⟩, ⟨2, 2⟩, ⟨0, 2⟩, ⟨2, 0⟩] ∧
      ∀ r ∈ [(⟨0, 0⟩ : Pt), ⟨1, 1⟩, ⟨2, 2⟩, ⟨0, 2⟩, ⟨2, 0⟩],
        distL1 ⟨1, 1⟩ p ≤ distL1 ⟨1, 1⟩ r :=
  ⟨distL1_dom, by decide,
    kdtNearest_correct distL1 distL1_dom
      [⟨0, 0⟩, ⟨1, 1⟩, ⟨2, 2⟩, ⟨0, 2⟩, ⟨2, 0⟩] (by decide) ⟨1, 1⟩⟩

/-- C1 counterexample: under a capability distance whose unit is one
thousandth of the coordinate unit (violating per-axis dominance, as
`GeoPt`'s kilometre distance does against degree coordinates),
`nearest((1, 50))` on the tree of `(0,0)`, `(5,50)`, `(0,50)` returns
`(5,50)` although the stored point `(0,50)` is strictly closer: the
`best_d >= s_d` prune compares the tiny distance `4/1000` against the
raw coordinate gap `1` and wrongly discards the subtree holding
`(0,50)`. -/
theorem kdtNearest_misses_true_nearest :
    kdtNearest distTiny kdCounterTree ⟨1, 50⟩ =
      (some (.fin ⟨5, 50⟩), (distTiny ⟨1, 50⟩ ⟨5, 50⟩ : WithTop Rat)) ∧
    (⟨0, 50⟩ : Pt) ∈ KD.toListKD kdCounterTree.root ∧
    distTiny ⟨1, 50⟩ ⟨0, 50⟩ < distTiny ⟨1, 50⟩ ⟨5, 50⟩ := by
  refine ⟨?_, ?_, ?_⟩
  · norm_num [kdtNearest, kdCounterTree, kdtBuild, kdtAdd, kdtEmpty, KD.add,
      nearestKD, nearestGo, getClosestPoint, gcpStep, distP, distTiny, coord,
      Axis.next, List.foldl, WithTop.coe_lt_top, WithTop.coe_lt_coe,
      WithTop.coe_le_coe, ge_iff_le, gt_iff_lt]
  · norm_num [kdCounterTree, kdtBuild, kdtAdd, kdtEmpty, KD.add, KD.toListKD,
      coord, List.foldl, Pt.mk.injEq]
  · norm_num [distTiny]

/-- Witness for C2 at Scenario C: the two demo squares with values 10
and 20; the query `(0, 0)` lies in the first square only. -/
theorem findShape_correct_witness :
    (∀ s p, Bound.containsP s p = true →
      Bound.containsP ((fun b => b) s) p = true) ∧
    btAddAll (fun b => b) bttEmpty demoShapes demoValues = .ok demoBTT ∧
    ((demoShapes.zip demoValues).countP fun sv =>
      Bound.containsP sv.1 ⟨0, 0⟩) ≤ 1 ∧
    findShape Bound.containsP ⟨0, 0⟩ demoBTT.root =
      ((demoShapes.zip demoValues).find? (fun sv =>
        Bound.containsP sv.1 ⟨0, 0⟩)).map (fun sv => sv.2) :=
  ⟨fun _ _ h => h, by decide, by decide,
    findShape_correct Bound.containsP (fun b => b) (fun _ _ h => h)
      demoShapes demoValues demoBTT (by decide) ⟨0, 0⟩ (by decide)⟩

end Geo
